import Mathlib

/-!
# azul — CityGMLParser.hpp

A shallow embedding of the four pugixml tree walkers declared in
`src/CityGMLParser.hpp` (`PointsWalker`, `RingsWalker`, `PolygonsWalker`,
`ObjectsWalker`), of the part of `pugi::xml_node::traverse` they rely on, and of
the edge extractor and bounds tracker of `CityGMLParser`, followed by the
theorems that settle the claims C1 – C10 about them.
-/

set_option autoImplicit false

/-! ## The document tree and `pugi::xml_node::traverse` -/

/-- The node storage of pugixml as far as the walkers look at it: a node has a
name, the text returned by `child_value()`, a `first_child` and a
`next_sibling`; `null` is the null pointer that ends a sibling chain. -/
inductive xml_node_struct where
  | null : xml_node_struct
  | node (name : String) (child_value : String)
      (first_child : xml_node_struct) (next_sibling : xml_node_struct) : xml_node_struct
  deriving Repr, DecidableEq

/-- A `pugi::xml_node` handle.  The pointer identity of the handle is its
position in the document: `path` lists the child indices leading from the node
on which `traverse` was called down to the node.  `name` and `child_value` are
what `name()` and `child_value()` return for it. -/
structure xml_node where
  path : List Nat
  name : String
  child_value : String
  deriving Repr, DecidableEq

/-- The loop of `xml_node::traverse` over the sibling chain `cur`, whose first
node is child number `i` of the node at `parent` and lies at depth `depth`:
`for_each` is called on a node, then its children are walked one level deeper,
then its following siblings; the walk stops as soon as `for_each` returns
`false`.  The third argument of `for_each` is the value of `depth()`. -/
def xml_node_struct.walk {σ : Type} (for_each : σ → xml_node → Nat → σ × Bool) :
    xml_node_struct → List Nat → Nat → Nat → σ → σ × Bool
  | .null, _, _, _, s => (s, true)
  | .node nm cv fc ns, parent, i, depth, s =>
    match for_each s ⟨parent ++ [i], nm, cv⟩ depth with
    | (s1, false) => (s1, false)
    | (s1, true) =>
      match walk for_each fc (parent ++ [i]) 0 (depth + 1) s1 with
      | (s2, false) => (s2, false)
      | (s2, true) => walk for_each ns parent (i + 1) depth s2

/-- The call `root.traverse(walker)`: the descendants of `root` are visited in
pre-order, the children of `root` at depth 0; `root` itself and its siblings
are not visited.  `begin` and `end` are the defaults, which return `true`. -/
def xml_node_struct.traverse {σ : Type} (for_each : σ → xml_node → Nat → σ × Bool)
    (root : xml_node_struct) (walker : σ) : σ × Bool :=
  match root with
  | .null => (walker, true)
  | .node _ _ fc _ => fc.walk for_each [] 0 0 walker

/-- The nodes of a sibling chain and of everything below it in document
(pre-)order, each with its depth. -/
def xml_node_struct.preorder : xml_node_struct → List Nat → Nat → Nat → List (xml_node × Nat)
  | .null, _, _, _ => []
  | .node nm cv fc ns, parent, i, depth =>
    (⟨parent ++ [i], nm, cv⟩, depth) ::
      (preorder fc (parent ++ [i]) 0 (depth + 1) ++ preorder ns parent (i + 1) depth)

/-- The visits of `root.traverse`: every descendant of `root` in document
order, with the depth the walker sees. -/
def xml_node_struct.visits (root : xml_node_struct) : List (xml_node × Nat) :=
  match root with
  | .null => []
  | .node _ _ fc _ => fc.preorder [] 0 0

/-- The descendants of `root` in document order. -/
def xml_node_struct.descendants (root : xml_node_struct) : List xml_node :=
  root.visits.map Prod.fst

/-! ## `std::map<int, T>` -/

/-- A `std::map<int, V>`: the entries in increasing key order. -/
abbrev StdMap (V : Type) := List (Int × V)

/-- `m.count(k)`. -/
def StdMap.count {V : Type} (m : StdMap V) (k : Int) : Nat :=
  if (m.lookup k).isSome then 1 else 0

/-- The value stored under `k`, if any (`m.find(k)`). -/
def StdMap.find? {V : Type} (m : StdMap V) (k : Int) : Option V :=
  m.lookup k

/-- `m[k] = v`: the entry of `k` is created or overwritten, the key order is
kept. -/
def StdMap.set {V : Type} : StdMap V → Int → V → StdMap V
  | [], k, v => [(k, v)]
  | (k', v') :: m, k, v =>
    if k < k' then (k, v) :: (k', v') :: m
    else if k = k' then (k, v) :: m
    else (k', v') :: StdMap.set m k v

/-! ## ObjectsWalker -/

/-- The state of an `ObjectsWalker`. -/
structure ObjectsWalker where
  objects : List xml_node
  deriving Repr, DecidableEq

/-- The names compared by `ObjectsWalker::for_each`. -/
def ObjectsWalker.isObjectName (name : String) : Prop :=
  name = "bldg:Building" ∨ name = "tran:Road" ∨ name = "dem:ReliefFeature" ∨
  name = "wtr:WaterBody" ∨ name = "veg:PlantCover" ∨ name = "gen:GenericCityObject" ∨
  name = "brg:Bridge" ∨ name = "luse:LandUse"

instance (name : String) : Decidable (ObjectsWalker.isObjectName name) := by
  unfold ObjectsWalker.isObjectName; infer_instance

/-- `ObjectsWalker::for_each`. -/
def ObjectsWalker.for_each (w : ObjectsWalker) (node : xml_node) : ObjectsWalker × Bool :=
  if ObjectsWalker.isObjectName node.name then
    ({ w with objects := w.objects ++ [node] }, true)
  else (w, true)

/-! ## RingsWalker -/

/-- The state of a `RingsWalker`; the null handle of a default-constructed
`exteriorRing` is `none`. -/
structure RingsWalker where
  exteriorRing : Option xml_node
  interiorRings : List xml_node
  deriving Repr, DecidableEq

/-- `RingsWalker::for_each`. -/
def RingsWalker.for_each (w : RingsWalker) (node : xml_node) : RingsWalker × Bool :=
  if node.name = "gml:exterior" then
    ({ w with exteriorRing := some node }, true)
  else if node.name = "gml:interior" then
    ({ w with interiorRings := w.interiorRings ++ [node] }, true)
  else (w, true)

/-! ## PolygonsWalker -/

/-- The state of a `PolygonsWalker`. -/
structure PolygonsWalker where
  polygonsByType : StdMap (List xml_node)
  inDefinedType : Int
  depthToStop : Nat
  deriving Repr, DecidableEq

/-- A freshly constructed `PolygonsWalker`: the map is empty, `inDefinedType` is
0 and `depthToStop` is not initialised, so it holds some indeterminate value. -/
def PolygonsWalker.fresh (indeterminate : Nat) : PolygonsWalker :=
  { polygonsByType := [], inDefinedType := 0, depthToStop := indeterminate }

/-- `PolygonsWalker::for_each`, with `depth` the value of `depth()`. -/
def PolygonsWalker.for_each (w : PolygonsWalker) (node : xml_node) (depth : Nat) :
    PolygonsWalker × Bool :=
  let w1 : PolygonsWalker :=
    if w.inDefinedType ≠ 0 ∧ depth ≤ w.depthToStop then { w with inDefinedType := 0 } else w
  if node.name = "bldg:RoofSurface" then
    ({ w1 with inDefinedType := 1, depthToStop := depth }, true)
  else if node.name = "gml:Polygon" ∨ node.name = "gml:Triangle" then
    let m1 : StdMap (List xml_node) :=
      if w1.polygonsByType.count w1.inDefinedType = 0 then
        w1.polygonsByType.set w1.inDefinedType []
      else w1.polygonsByType
    let m2 : StdMap (List xml_node) :=
      m1.set w1.inDefinedType ((m1.find? w1.inDefinedType).getD [] ++ [node])
    ({ w1 with polygonsByType := m2 }, true)
  else (w1, true)

/-- The test `strcmp(node.name(), "bldg:RoofSurface") == 0`. -/
def xml_node.isRoofSurface (n : xml_node) : Prop := n.name = "bldg:RoofSurface"

instance (n : xml_node) : Decidable n.isRoofSurface := by
  unfold xml_node.isRoofSurface; infer_instance

/-- The test for `gml:Polygon` or `gml:Triangle`. -/
def xml_node.isPolygon (n : xml_node) : Prop :=
  n.name = "gml:Polygon" ∨ n.name = "gml:Triangle"

instance (n : xml_node) : Decidable n.isPolygon := by
  unfold xml_node.isPolygon; infer_instance

/-- The node `a` is a proper ancestor of the node `n`. -/
def xml_node.isAncestorOf (a n : xml_node) : Prop :=
  a.path <+: n.path ∧ a.path ≠ n.path

instance (a n : xml_node) : Decidable (a.isAncestorOf n) := by
  unfold xml_node.isAncestorOf; infer_instance

/-- The nodes recorded under the key `k` (empty when the key is absent). -/
def PolygonsWalker.recorded (w : PolygonsWalker) (k : Int) : List xml_node :=
  (w.polygonsByType.find? k).getD []

/-- The walker after `root.traverse(walker)` on a fresh walker. -/
def PolygonsWalker.walked (root : xml_node_struct) (indeterminate : Nat) : PolygonsWalker :=
  (root.traverse PolygonsWalker.for_each (PolygonsWalker.fresh indeterminate)).1

/-- The value of `inDefinedType` once the first `if` of `for_each` has run at a
node of depth `depth`: the key a polygon node at that depth is filed under. -/
def PolygonsWalker.typeAt (w : PolygonsWalker) (depth : Nat) : Int :=
  if w.inDefinedType ≠ 0 ∧ depth ≤ w.depthToStop then 0 else w.inDefinedType

/-- The walker after the visits `vs`. -/
def PolygonsWalker.run (w : PolygonsWalker) (vs : List (xml_node × Nat)) : PolygonsWalker :=
  vs.foldl (fun s v => (s.for_each v.1 v.2).1) w

/-- The polygon nodes among the visits `vs` that the walker files under `k`. -/
def PolygonsWalker.assigned (k : Int) : PolygonsWalker → List (xml_node × Nat) → List xml_node
  | _, [] => []
  | w, v :: vs =>
    (if v.1.isPolygon ∧ w.typeAt v.2 = k then [v.1] else []) ++
      assigned k (w.for_each v.1 v.2).1 vs

/-- The last `bldg:RoofSurface` visit of a list together with the visits after
it. -/
def sinceRoof : List (xml_node × Nat) → Option ((xml_node × Nat) × List (xml_node × Nat))
  | [] => none
  | v :: vs =>
    match sinceRoof vs with
    | some x => some x
    | none => if v.1.isRoofSurface then some (v, vs) else none

/-- The map holding `l0` under key 0 and `l1` under key 1, a key being present
only when its list is not empty. -/
def PolygonsWalker.canon (l0 l1 : List xml_node) : StdMap (List xml_node) :=
  (if l0 = [] then [] else [((0 : Int), l0)]) ++ (if l1 = [] then [] else [((1 : Int), l1)])

/-- A list of visits is nested when, for every visit `R` and every later visit
`N`, `R` lies on the path to `N` exactly when every visit after `R` up to and
including `N` is deeper than `R`. -/
def Nested : List (xml_node × Nat) → Prop
  | [] => True
  | R :: B =>
    (∀ B1 N C, B = B1 ++ N :: C →
      (R.1.path <+: N.1.path ↔ ∀ M ∈ B1 ++ [N], R.2 < M.2)) ∧ Nested B

/-- A document in which a roof surface holds a nested roof surface followed by
a polygon. -/
def nestedRoofDocument : xml_node_struct :=
  .node "bldg:Building" ""
    (.node "bldg:RoofSurface" ""
      (.node "bldg:RoofSurface" "" .null
        (.node "gml:Polygon" "" .null .null))
      .null)
    .null

/-! ## Points, rings and `PointsWalker` -/

/-- A `CityGMLPoint`: the array `float coordinates[3]`, over a coordinate type
`α` that stands for `float`. -/
structure CityGMLPoint (α : Type) where
  coordinates : α × α × α
  deriving Repr, DecidableEq

/-- The value-initialised point `CityGMLPoint()`. -/
def CityGMLPoint.zero {α : Type} [Zero α] : CityGMLPoint α := ⟨(0, 0, 0)⟩

/-- The read `coordinates[i]`; `none` when `i` is outside the array. -/
def CityGMLPoint.get {α : Type} (p : CityGMLPoint α) (i : Nat) : Option α :=
  match i with
  | 0 => some p.coordinates.1
  | 1 => some p.coordinates.2.1
  | 2 => some p.coordinates.2.2
  | _ => none

/-- The write `coordinates[i] = v`; `none` when `i` is outside the array. -/
def CityGMLPoint.set {α : Type} (p : CityGMLPoint α) (i : Nat) (v : α) :
    Option (CityGMLPoint α) :=
  match i with
  | 0 => some ⟨(v, p.coordinates.2.1, p.coordinates.2.2)⟩
  | 1 => some ⟨(p.coordinates.1, v, p.coordinates.2.2)⟩
  | 2 => some ⟨(p.coordinates.1, p.coordinates.2.1, v)⟩
  | _ => none

/-- A `CityGMLRing`. -/
structure CityGMLRing (α : Type) where
  points : List (CityGMLPoint α)
  deriving Repr, DecidableEq

/-- A `CityGMLPolygon`. -/
structure CityGMLPolygon (α : Type) where
  exteriorRing : CityGMLRing α
  interiorRings : List (CityGMLRing α)
  deriving Repr, DecidableEq

/-- The white space skipped by `operator>>`: `std::isspace` in the C locale,
that is the space and the characters `\t \n \v \f \r` (codes 9 to 13). -/
def isspace (c : Char) : Bool :=
  c.toNat = 32 || (9 ≤ c.toNat && c.toNat ≤ 13)

/-- A `std::istringstream`: the characters not yet read and the two state bits
the loop depends on. -/
structure istringstream where
  buf : List Char
  eofbit : Bool
  failbit : Bool
  deriving Repr, DecidableEq

/-- The stream `std::istringstream iss(coordinates)`. -/
def istringstream.ofString (s : String) : istringstream :=
  { buf := s.data, eofbit := false, failbit := false }

/-- The extraction `iss >> substring` into a fresh string.  On a stream that is
not good the extraction fails at once; otherwise leading white space is
skipped and characters are taken up to the next white space or the end.
`eofbit` is set when the end is reached, `failbit` when nothing was taken. -/
def istringstream.extract (iss : istringstream) : String × istringstream :=
  if iss.eofbit || iss.failbit then ("", { iss with failbit := true })
  else
    let b := iss.buf.dropWhile isspace
    let tok := b.takeWhile (fun c => !isspace c)
    let rest := b.dropWhile (fun c => !isspace c)
    (String.mk tok, { buf := rest, eofbit := rest.isEmpty, failbit := tok.isEmpty })

/-- The exceptions `std::stof` throws. -/
inductive StofError where
  | invalid_argument
  | out_of_range
  deriving Repr, DecidableEq

deriving instance DecidableEq for Except

/-- What stops `PointsWalker::for_each` short of its `return true`: an
exception of `std::stof`, which the function does not catch, or undefined
behaviour (a write outside `coordinates`, `back()` or `pop_back()` on an empty
list), or the loop bound of the model running out. -/
inductive Fault where
  | stof (e : StofError)
  | index_out_of_bounds
  | back_of_empty
  | pop_back_of_empty
  | out_of_fuel
  deriving Repr, DecidableEq

/-- The operations of `PointsWalker::for_each` on `points`, as they happen:
`back n` and `pop_back n` carry the size of the list at the call, `write i` the
coordinate index that is written. -/
inductive Event where
  | push_back
  | back (size : Nat)
  | write (index : Nat)
  | cout_wrong_number
  | pop_back (size : Nat)
  deriving Repr, DecidableEq

/-- The state of a `PointsWalker`. -/
structure PointsWalker (α : Type) where
  points : List (CityGMLPoint α)
  deriving Repr, DecidableEq

/-- The variables of the `do … while` loop of `PointsWalker::for_each`, the
operations performed so far and the fault that ended the run, if any. -/
structure PointsRun (α : Type) where
  points : List (CityGMLPoint α)
  currentCoordinate : Nat
  trace : List Event
  fault : Option Fault
  deriving Repr, DecidableEq

/-- The body of `if (substring.length() > 0)`: a point is pushed when
`currentCoordinate` is 0, `std::stof(substring)` is stored in
`points.back().coordinates[currentCoordinate]` and the index moves on
modulo 3.  `stof` is the conversion `std::stof`.  The two sides of the
assignment are evaluated left first, `back()` before `std::stof`, the order in
which the most operations on `points` are performed. -/
def PointsWalker.token {α : Type} [Zero α] (stof : String → Except StofError α)
    (r : PointsRun α) (substring : String) : PointsRun α :=
  let r1 : PointsRun α :=
    if r.currentCoordinate = 0 then
      { r with points := r.points ++ [CityGMLPoint.zero], trace := r.trace ++ [Event.push_back] }
    else r
  match r1.points.getLast? with
  | none => { r1 with trace := r1.trace ++ [Event.back 0], fault := some Fault.back_of_empty }
  | some p =>
    let r2 : PointsRun α := { r1 with trace := r1.trace ++ [Event.back r1.points.length] }
    match stof substring with
    | .error e => { r2 with fault := some (Fault.stof e) }
    | .ok v =>
      match p.set r2.currentCoordinate v with
      | none =>
        { r2 with trace := r2.trace ++ [Event.write r2.currentCoordinate],
                  fault := some Fault.index_out_of_bounds }
      | some q =>
        { r2 with points := r2.points.dropLast ++ [q],
                  currentCoordinate := (r2.currentCoordinate + 1) % 3,
                  trace := r2.trace ++ [Event.write r2.currentCoordinate] }

/-- The loop `do { … } while (iss)`, for at most `fuel` rounds. -/
def PointsWalker.loop {α : Type} [Zero α] (stof : String → Except StofError α) :
    Nat → istringstream → PointsRun α → PointsRun α
  | 0, _, r => { r with fault := some Fault.out_of_fuel }
  | fuel + 1, iss, r =>
    let x := iss.extract
    let r1 := if x.1.length > 0 then PointsWalker.token stof r x.1 else r
    if r1.fault.isSome then r1
    else if x.2.failbit then r1
    else loop stof fuel x.2 r1

/-- What a call of `PointsWalker::for_each` leaves behind: the walker, the
operations it performed on `points`, and its return value or the fault that
ended it. -/
structure PointsResult (α : Type) where
  walker : PointsWalker α
  trace : List Event
  outcome : Except Fault Bool
  deriving Repr, DecidableEq

/-- The end of `PointsWalker::for_each`, after the loop: a fault ends the call;
otherwise, when `currentCoordinate` is not 0, the message is printed and the
last point is popped; the function returns `true`. -/
def PointsWalker.finish {α : Type} (r : PointsRun α) : PointsResult α :=
  match r.fault with
  | some f => { walker := ⟨r.points⟩, trace := r.trace, outcome := .error f }
  | none =>
    if r.currentCoordinate ≠ 0 then
      if r.points.isEmpty then
        { walker := ⟨r.points⟩,
          trace := r.trace ++ [Event.cout_wrong_number, Event.pop_back 0],
          outcome := .error Fault.pop_back_of_empty }
      else
        { walker := ⟨r.points.dropLast⟩,
          trace := r.trace ++ [Event.cout_wrong_number, Event.pop_back r.points.length],
          outcome := .ok true }
    else { walker := ⟨r.points⟩, trace := r.trace, outcome := .ok true }

/-- `PointsWalker::for_each`.  Every round of the loop but the last reads at
least one character, so one round more than the text has characters is
enough. -/
def PointsWalker.for_each {α : Type} [Zero α] (stof : String → Except StofError α)
    (w : PointsWalker α) (node : xml_node) : PointsResult α :=
  if node.name = "gml:pos" ∨ node.name = "gml:posList" then
    PointsWalker.finish
      (PointsWalker.loop stof (node.child_value.length + 1)
        (istringstream.ofString node.child_value)
        { points := w.points, currentCoordinate := 0, trace := [], fault := none })
  else { walker := w, trace := [], outcome := .ok true }

/-- The white-space separated tokens of a text, in order. -/
def tokens : List Char → List String
  | [] => []
  | c :: cs =>
    if isspace c then tokens cs
    else
      match cs with
      | [] => [String.mk [c]]
      | c1 :: _ =>
        if isspace c1 then String.mk [c] :: tokens cs
        else
          match tokens cs with
          | t :: ts => String.mk (c :: t.data) :: ts
          | [] => [String.mk [c]]

/-- The loop body applied to the tokens `ts` in turn, up to the first fault. -/
def PointsWalker.feed {α : Type} [Zero α] (stof : String → Except StofError α) :
    PointsRun α → List String → PointsRun α
  | r, [] => r
  | r, t :: ts =>
    if (PointsWalker.token stof r t).fault.isSome then PointsWalker.token stof r t
    else feed stof (PointsWalker.token stof r t) ts

/-- The points made of the complete leading triples of a list of coordinates. -/
def group3 {α : Type} : List α → List (CityGMLPoint α)
  | a :: b :: c :: rest => ⟨(a, b, c)⟩ :: group3 rest
  | _ => []

/-- The partly filled point that the coordinates left over after the complete
triples make, if any. -/
def pending3 {α : Type} [Zero α] : List α → List (CityGMLPoint α)
  | _ :: _ :: _ :: rest => pending3 rest
  | [a, b] => [⟨(a, b, 0)⟩]
  | [a] => [⟨(a, 0, 0)⟩]
  | [] => []

/-- The value of a string of decimal digits, `none` when another character
occurs in it. -/
def digitsValue : List Char → Nat → Option Nat
  | [], acc => some acc
  | c :: cs, acc => if c.isDigit then digitsValue cs (10 * acc + (c.toNat - 48)) else none

/-- An instance of the conversion for the examples: `std::stof` on the tokens
made of an optional sign and decimal digits, which it converts to their integer
value (a float holds the small ones used here exactly).  Every other token is
answered with `std::invalid_argument`, which is what `std::stof` does with a
token that has no leading number, such as `abc`. -/
def stofDigits (s : String) : Except StofError Int :=
  let signed : Bool × List Char :=
    match s.data with
    | '-' :: r => (true, r)
    | '+' :: r => (false, r)
    | r => (false, r)
  match signed.2 with
  | [] => .error StofError.invalid_argument
  | ds =>
    match digitsValue ds 0 with
    | some n => .ok (if signed.1 then - (n : Int) else (n : Int))
    | none => .error StofError.invalid_argument

/-- The conditions a single operation of `for_each` has to meet, for a walker
that held `n0` points when the node was entered: a write stays inside
`coordinates`, and `back()` and `pop_back()` find more than `n0` points. -/
def Event.safe (n0 : Nat) : Event → Prop
  | .write i => i < 3
  | .back n => n0 < n
  | .pop_back n => n0 < n
  | _ => True

/-- The invariant of the loop of `for_each`, for a walker that held `n0` points
when the node was entered. -/
def PointsRun.Inv {α : Type} (n0 : Nat) (r : PointsRun α) : Prop :=
  r.currentCoordinate < 3 ∧ (∀ e ∈ r.trace, e.safe n0) ∧ n0 ≤ r.points.length ∧
  (r.currentCoordinate ≠ 0 → n0 < r.points.length) ∧
  (r.fault = none ∨ ∃ e, r.fault = some (Fault.stof e))

/-! ## `CityGMLObject` and `CityGMLParser`

The header declares `CityGMLParser` and its members; the bodies of its member
functions are in a source file that is not part of `src/`.  The functions below
are therefore modelled from the specification. -/

/-- The enumeration `CityGMLObject::Type`. -/
inductive CityGMLObjectType where
  | Building
  | Road
  | WaterBody
  | ReliefFeature
  | PlantCover
  | GenericCityObject
  | Bridge
  | LandUse
  deriving Repr, DecidableEq

/-- The value of an enumerator of `CityGMLObject::Type`. -/
def CityGMLObjectType.toNat : CityGMLObjectType → Nat
  | .Building => 1
  | .Road => 2
  | .WaterBody => 3
  | .ReliefFeature => 4
  | .PlantCover => 5
  | .GenericCityObject => 6
  | .Bridge => 7
  | .LandUse => 8

/-- A `CityGMLObject`. -/
structure CityGMLObject (α : Type) where
  type : CityGMLObjectType
  id : String
  polygonsByType : StdMap (List (CityGMLPolygon α))
  trianglesByType : StdMap (List α)
  edges : List α
  deriving Repr

/-- Modelled from the spec: the 6-float 3D segment from `p` to `q` of section
4.5 (EdgeExtractor), three floats per endpoint. -/
def edgeSegment {α : Type} (p q : CityGMLPoint α) : List α :=
  [p.coordinates.1, p.coordinates.2.1, p.coordinates.2.2,
   q.coordinates.1, q.coordinates.2.1, q.coordinates.2.2]

/-- Modelled from the spec: the point pairs of a ring that section 4.5 emits,
"each consecutive point pair plus the closing pair (last→first)". -/
def ringPairs {α : Type} (points : List (CityGMLPoint α)) :
    List (CityGMLPoint α × CityGMLPoint α) :=
  points.zip points.tail ++
    (match points.getLast?, points.head? with
     | some last, some first => [(last, first)]
     | _, _ => [])

/-- Modelled from the spec: the edges of one ring, the body of the missing
`CityGMLParser::regenerateEdgesFor` for a ring.  Section 4.5 emits the pairs of
`ringPairs` as segments.  By the invariants of section 3 "degenerate rings
(<3 points) contribute zero triangles/edges without aborting the object", and
by section 7 a ring with fewer than 3 points is skipped (InvalidRing). -/
def ringEdges {α : Type} (ring : CityGMLRing α) : List α :=
  if ring.points.length < 3 then []
  else ((ringPairs ring.points).map (fun pq => edgeSegment pq.1 pq.2)).flatten

/-- Modelled from the spec: the edges of a polygon, those of its exterior ring
followed by those of its interior rings (section 4.5: "every ring (exterior and
interior) of every polygon"). -/
def polygonEdges {α : Type} (polygon : CityGMLPolygon α) : List α :=
  ringEdges polygon.exteriorRing ++ (polygon.interiorRings.map ringEdges).flatten

/-- Modelled from the spec: the missing `CityGMLParser::regenerateEdgesFor`.
By section 4.7 it rebuilds the edge buffer of the object, and by section 4.5
the buffer is the single one of the object, filled from every polygon whatever
its sub-type. -/
def regenerateEdgesFor {α : Type} (object : CityGMLObject α) : CityGMLObject α :=
  { object with
    edges := (((object.polygonsByType.map Prod.snd).flatten).map polygonEdges).flatten }

/-- The bounds of a `CityGMLParser`, `float minCoordinates[3]` and
`float maxCoordinates[3]`, with its objects.  The coordinate type `α` stands
for `float` with its order and its two infinities.  The member `firstRing`, of
which the specification says nothing, is left out. -/
structure CityGMLParser (α : Type) where
  objects : List (CityGMLObject α)
  minCoordinates : α × α × α
  maxCoordinates : α × α × α

/-- The component `i` of an array of three coordinates. -/
def coordinate {α : Type} (c : α × α × α) : Fin 3 → α
  | 0 => c.1
  | 1 => c.2.1
  | 2 => c.2.2

/-- Modelled from the spec: the missing constructor `CityGMLParser()`.  By
section 4.6 the bounds are "initialized to +infinity/−infinity sentinels". -/
def CityGMLParser.new {α : Type} [LinearOrder α] [BoundedOrder α] : CityGMLParser α :=
  { objects := [], minCoordinates := (⊤, ⊤, ⊤), maxCoordinates := (⊥, ⊥, ⊥) }

/-- Modelled from the spec: the missing `CityGMLParser::clear`, which by
section 4.7 "drops all objects and resets BoundsTracker". -/
def CityGMLParser.clear {α : Type} [LinearOrder α] [BoundedOrder α]
    (_old : CityGMLParser α) : CityGMLParser α :=
  CityGMLParser.new

/-- Modelled from the spec: the bounds update of the missing
`CityGMLParser::parseRing` for one ingested point.  By section 4.6 the tracker
"maintains component-wise running min/max across all points ever ingested". -/
def CityGMLParser.ingest {α : Type} [LinearOrder α] (parser : CityGMLParser α)
    (point : CityGMLPoint α) : CityGMLParser α :=
  { parser with
    minCoordinates :=
      (min parser.minCoordinates.1 point.coordinates.1,
       min parser.minCoordinates.2.1 point.coordinates.2.1,
       min parser.minCoordinates.2.2 point.coordinates.2.2)
    maxCoordinates :=
      (max parser.maxCoordinates.1 point.coordinates.1,
       max parser.maxCoordinates.2.1 point.coordinates.2.1,
       max parser.maxCoordinates.2.2 point.coordinates.2.2) }

/-- The parser after the points of a list have been ingested in order. -/
def CityGMLParser.ingestAll {α : Type} [LinearOrder α] (parser : CityGMLParser α)
    (points : List (CityGMLPoint α)) : CityGMLParser α :=
  points.foldl CityGMLParser.ingest parser

/-- The integers with the two infinities, a stand-in for `float` in the
examples. -/
abbrev ExtendedInt := WithBot (WithTop Int)

/-- An integer as an `ExtendedInt`. -/
def ExtendedInt.ofInt (z : Int) : ExtendedInt := ((z : WithTop Int) : WithBot (WithTop Int))

/-- The point with the integer coordinates `x`, `y`, `z`. -/
def ExtendedInt.point (x y z : Int) : CityGMLPoint ExtendedInt :=
  ⟨(ExtendedInt.ofInt x, ExtendedInt.ofInt y, ExtendedInt.ofInt z)⟩

/-- An object whose only polygon has an exterior ring of two points. -/
def twoPointObject : CityGMLObject Int :=
  { type := CityGMLObjectType.Building, id := "b1",
    polygonsByType := [(0, [⟨⟨[⟨(0, 0, 0)⟩, ⟨(1, 0, 0)⟩]⟩, []⟩])],
    trianglesByType := [], edges := [] }

/-- An object whose only polygon has a triangle as exterior ring and a triangle
as hole. -/
def holedObject : CityGMLObject Int :=
  { type := CityGMLObjectType.Building, id := "b2",
    polygonsByType :=
      [(1, [⟨⟨[⟨(0, 0, 0)⟩, ⟨(9, 0, 0)⟩, ⟨(0, 9, 0)⟩]⟩,
             [⟨[⟨(1, 1, 0)⟩, ⟨(2, 1, 0)⟩, ⟨(1, 2, 0)⟩]⟩]⟩])],
    trianglesByType := [], edges := [] }

/-! ## Theorems -/

/-- When `for_each` never returns `false`, the walk visits the whole chain: its
result is the left fold of `for_each` over the pre-order list. -/
theorem xml_node_struct.walk_eq_foldl {σ : Type} (for_each : σ → xml_node → Nat → σ × Bool)
    (htrue : ∀ s n d, (for_each s n d).2 = true) (t : xml_node_struct) :
    ∀ (parent : List Nat) (i depth : Nat) (s : σ),
      t.walk for_each parent i depth s =
        ((t.preorder parent i depth).foldl (fun s v => (for_each s v.1 v.2).1) s, true) := by
  induction t with
  | null => intro parent i depth s; rfl
  | node nm cv fc ns ihc ihs =>
    intro parent i depth s
    have h1 := htrue s ⟨parent ++ [i], nm, cv⟩ depth
    rw [xml_node_struct.walk]
    rcases hfe : for_each s ⟨parent ++ [i], nm, cv⟩ depth with ⟨s1, b⟩
    rw [hfe] at h1
    simp only at h1
    subst h1
    simp only [ihc, ihs, xml_node_struct.preorder, List.foldl_cons, List.foldl_append, hfe]

/-- With a `for_each` that never returns `false`, `traverse` folds `for_each`
over all visits and returns `true`. -/
theorem xml_node_struct.traverse_eq_foldl {σ : Type}
    (for_each : σ → xml_node → Nat → σ × Bool)
    (htrue : ∀ s n d, (for_each s n d).2 = true) (root : xml_node_struct) (s : σ) :
    root.traverse for_each s =
      (root.visits.foldl (fun s v => (for_each s v.1 v.2).1) s, true) := by
  cases root with
  | null => rfl
  | node nm cv fc ns =>
    simp only [xml_node_struct.traverse, xml_node_struct.visits]
    exact xml_node_struct.walk_eq_foldl for_each htrue fc [] 0 0 s

/-- Every node of `t.preorder parent i depth` sits below `parent`, in the child
number `i` or a later one, and its depth is `depth` plus the number of steps
below that child. -/
theorem xml_node_struct.preorder_path (t : xml_node_struct) :
    ∀ (parent : List Nat) (i depth : Nat) (v : xml_node × Nat),
      v ∈ t.preorder parent i depth →
        ∃ j rest, i ≤ j ∧ v.1.path = parent ++ j :: rest ∧ v.2 = depth + rest.length := by
  induction t with
  | null => intro parent i depth v hv; simp [xml_node_struct.preorder] at hv
  | node nm cv fc ns ihc ihs =>
    intro parent i depth v hv
    simp only [xml_node_struct.preorder, List.mem_cons, List.mem_append] at hv
    rcases hv with rfl | hv | hv
    · exact ⟨i, [], le_refl _, rfl, rfl⟩
    · obtain ⟨j, rest, _, hp, hd⟩ := ihc _ _ _ v hv
      refine ⟨i, j :: rest, le_refl _, ?_, ?_⟩
      · rw [hp]; simp
      · rw [hd]; simp; omega
    · obtain ⟨j, rest, hj, hp, hd⟩ := ihs _ _ _ v hv
      exact ⟨j, rest, by omega, hp, hd⟩

/-- No two nodes of a pre-order list share a path. -/
theorem xml_node_struct.preorder_nodup (t : xml_node_struct) :
    ∀ (parent : List Nat) (i depth : Nat),
      ((t.preorder parent i depth).map (fun v => v.1.path)).Nodup := by
  induction t with
  | null => intro parent i depth; simp [xml_node_struct.preorder]
  | node nm cv fc ns ihc ihs =>
    intro parent i depth
    simp only [xml_node_struct.preorder, List.map_cons, List.map_append, List.nodup_cons,
      List.mem_append, List.mem_map, not_or, not_exists, not_and]
    refine ⟨⟨?_, ?_⟩, ?_⟩
    · intro v hv hp
      obtain ⟨j, rest, _, hp2, _⟩ := xml_node_struct.preorder_path fc _ _ _ v hv
      rw [hp2] at hp
      simp at hp
    · intro v hv hp
      obtain ⟨j, rest, hj, hp2, _⟩ := xml_node_struct.preorder_path ns _ _ _ v hv
      rw [hp2] at hp
      simp at hp
      omega
    · rw [List.nodup_append]
      refine ⟨ihc _ _ _, ihs _ _ _, ?_⟩
      intro p hp1 hp2
      simp only [List.mem_map] at hp1 hp2
      obtain ⟨v1, hv1, rfl⟩ := hp1
      obtain ⟨v2, hv2, he⟩ := hp2
      obtain ⟨j1, r1, _, hq1, _⟩ := xml_node_struct.preorder_path fc _ _ _ v1 hv1
      obtain ⟨j2, r2, hj2, hq2, _⟩ := xml_node_struct.preorder_path ns _ _ _ v2 hv2
      rw [hq1, hq2] at he
      simp at he
      omega

/-- The handles of the descendants of a node are pairwise distinct. -/
theorem xml_node_struct.descendants_nodup (root : xml_node_struct) :
    root.descendants.Nodup := by
  have h : (root.descendants.map (fun n => n.path)).Nodup := by
    cases root with
    | null => simp [xml_node_struct.descendants, xml_node_struct.visits]
    | node nm cv fc ns =>
      have := xml_node_struct.preorder_nodup fc [] 0 0
      simpa [xml_node_struct.descendants, xml_node_struct.visits, List.map_map,
        Function.comp_def] using this
  exact List.Nodup.of_map _ h

/-- The fold of `ObjectsWalker::for_each` appends the recognised nodes. -/
theorem ObjectsWalker.foldl_objects (vs : List (xml_node × Nat)) :
    ∀ w : ObjectsWalker,
      (vs.foldl (fun s v => (s.for_each v.1).1) w).objects =
        w.objects ++ (vs.map Prod.fst).filter (fun n => ObjectsWalker.isObjectName n.name) := by
  induction vs with
  | nil => intro w; simp
  | cons v vs ih =>
    intro w
    rw [List.foldl_cons, ih]
    by_cases h : ObjectsWalker.isObjectName v.1.name
    · simp [ObjectsWalker.for_each, h]
    · simp [ObjectsWalker.for_each, h]

/-- The fold of `RingsWalker::for_each` appends the interior nodes and keeps the
last exterior node. -/
theorem RingsWalker.foldl_rings (vs : List (xml_node × Nat)) :
    ∀ w : RingsWalker,
      (vs.foldl (fun s v => (s.for_each v.1).1) w).interiorRings =
          w.interiorRings ++ (vs.map Prod.fst).filter (fun n => n.name = "gml:interior") ∧
      (vs.foldl (fun s v => (s.for_each v.1).1) w).exteriorRing =
          (((vs.map Prod.fst).filter (fun n => n.name = "gml:exterior")).getLast?).or
            w.exteriorRing := by
  induction vs with
  | nil => intro w; simp
  | cons v vs ih =>
    intro w
    rw [List.foldl_cons]
    obtain ⟨h1, h2⟩ := ih (w.for_each v.1).1
    rw [h1, h2]
    by_cases he : v.1.name = "gml:exterior"
    · have hi : ¬ ("gml:exterior" : String) = "gml:interior" := by decide
      refine ⟨?_, ?_⟩
      · simp [RingsWalker.for_each, he, hi]
      · cases hl : (List.filter (fun n => decide (n.name = "gml:exterior"))
            (List.map Prod.fst vs)).getLast? with
        | none =>
          rw [List.getLast?_eq_none_iff] at hl
          simp [RingsWalker.for_each, he, hl]
        | some x =>
          simp [RingsWalker.for_each, he, List.getLast?_cons, hl]
    · by_cases hi : v.1.name = "gml:interior"
      · simp [RingsWalker.for_each, he, hi]
      · simp [RingsWalker.for_each, he, hi]

/-- **C4.**  After a fresh `ObjectsWalker` has walked a document tree, `objects`
is the list of the visited nodes with one of the eight recognised feature names,
in document order; no node is listed twice, every listed node is a visited node
with a recognised name and every such node is listed; `for_each` returns `true`
on every node and so does `traverse`, which is never cut short. -/
theorem C4_objects_walker (root : xml_node_struct) :
    (root.traverse (fun s n _ => ObjectsWalker.for_each s n) ⟨[]⟩).1.objects =
        root.descendants.filter (fun n => ObjectsWalker.isObjectName n.name) ∧
    (root.traverse (fun s n _ => ObjectsWalker.for_each s n) ⟨[]⟩).1.objects.Nodup ∧
    (root.traverse (fun s n _ => ObjectsWalker.for_each s n) ⟨[]⟩).1.objects.Sublist
        root.descendants ∧
    (∀ n, n ∈ (root.traverse (fun s n _ => ObjectsWalker.for_each s n) ⟨[]⟩).1.objects ↔
        n ∈ root.descendants ∧
          (n.name = "bldg:Building" ∨ n.name = "tran:Road" ∨ n.name = "dem:ReliefFeature" ∨
           n.name = "wtr:WaterBody" ∨ n.name = "veg:PlantCover" ∨
           n.name = "gen:GenericCityObject" ∨ n.name = "brg:Bridge" ∨
           n.name = "luse:LandUse")) ∧
    (∀ (w : ObjectsWalker) (n : xml_node), (w.for_each n).2 = true) ∧
    (root.traverse (fun s n _ => ObjectsWalker.for_each s n) ⟨[]⟩).2 = true := by
  have htrue : ∀ (w : ObjectsWalker) (n : xml_node), (w.for_each n).2 = true := by
    intro w n
    unfold ObjectsWalker.for_each
    split <;> rfl
  have hfold := xml_node_struct.traverse_eq_foldl
    (fun (s : ObjectsWalker) n (_ : Nat) => ObjectsWalker.for_each s n)
    (fun s n _ => htrue s n) root ⟨[]⟩
  have hobj : (root.traverse (fun s n _ => ObjectsWalker.for_each s n) ⟨[]⟩).1.objects =
      root.descendants.filter (fun n => ObjectsWalker.isObjectName n.name) := by
    rw [hfold]
    simpa [xml_node_struct.descendants] using ObjectsWalker.foldl_objects root.visits ⟨[]⟩
  refine ⟨hobj, ?_, ?_, ?_, htrue, ?_⟩
  · rw [hobj]; exact (xml_node_struct.descendants_nodup root).filter _
  · rw [hobj]; exact List.filter_sublist _
  · intro n
    rw [hobj, List.mem_filter]
    simp [ObjectsWalker.isObjectName]
  · rw [hfold]

/-- **C5.**  After a fresh `RingsWalker` has walked a polygon subtree,
`interiorRings` is the list of the `gml:interior` nodes of the subtree in
document order, none twice, and `exteriorRing` is the last `gml:exterior` node
in document order: the only one when there is exactly one, the last one when
there are several (and the null handle when there is none). -/
theorem C5_rings_walker (root : xml_node_struct) :
    (root.traverse (fun s n _ => RingsWalker.for_each s n) ⟨none, []⟩).1.interiorRings =
        root.descendants.filter (fun n => n.name = "gml:interior") ∧
    (root.traverse (fun s n _ => RingsWalker.for_each s n) ⟨none, []⟩).1.interiorRings.Nodup ∧
    (root.traverse (fun s n _ => RingsWalker.for_each s n) ⟨none, []⟩).1.exteriorRing =
        (root.descendants.filter (fun n => n.name = "gml:exterior")).getLast? ∧
    (∀ e, root.descendants.filter (fun n => n.name = "gml:exterior") = [e] →
      (root.traverse (fun s n _ => RingsWalker.for_each s n) ⟨none, []⟩).1.exteriorRing =
        some e) ∧
    (∀ es e, root.descendants.filter (fun n => n.name = "gml:exterior") = es ++ [e] →
      (root.traverse (fun s n _ => RingsWalker.for_each s n) ⟨none, []⟩).1.exteriorRing =
        some e) := by
  have htrue : ∀ (w : RingsWalker) (n : xml_node), (w.for_each n).2 = true := by
    intro w n
    unfold RingsWalker.for_each
    split
    · rfl
    · split <;> rfl
  have hfold := xml_node_struct.traverse_eq_foldl
    (fun (s : RingsWalker) n (_ : Nat) => RingsWalker.for_each s n)
    (fun s n _ => htrue s n) root ⟨none, []⟩
  obtain ⟨h1, h2⟩ := RingsWalker.foldl_rings root.visits ⟨none, []⟩
  have hint : (root.traverse (fun s n _ => RingsWalker.for_each s n) ⟨none, []⟩).1.interiorRings =
      root.descendants.filter (fun n => n.name = "gml:interior") := by
    rw [hfold]
    simpa [xml_node_struct.descendants] using h1
  have hext : (root.traverse (fun s n _ => RingsWalker.for_each s n) ⟨none, []⟩).1.exteriorRing =
      (root.descendants.filter (fun n => n.name = "gml:exterior")).getLast? := by
    rw [hfold]
    simpa [xml_node_struct.descendants] using h2
  refine ⟨hint, ?_, hext, ?_, ?_⟩
  · rw [hint]; exact (xml_node_struct.descendants_nodup root).filter _
  · intro e he
    rw [hext, he]; rfl
  · intro es e he
    rw [hext, he]; simp

/-! ### PolygonsWalker -/

theorem PolygonsWalker.for_each_true (w : PolygonsWalker) (n : xml_node) (d : Nat) :
    (w.for_each n d).2 = true := by
  unfold PolygonsWalker.for_each
  dsimp only
  split
  · rfl
  · split <;> rfl

theorem xml_node.isPolygon_not_isRoofSurface (n : xml_node) (h : n.isPolygon) :
    ¬ n.isRoofSurface := by
  unfold xml_node.isPolygon at h
  unfold xml_node.isRoofSurface
  rcases h with h | h <;> rw [h] <;> decide

theorem PolygonsWalker.typeAt_cases (w : PolygonsWalker)
    (h : w.inDefinedType = 0 ∨ w.inDefinedType = 1) (d : Nat) :
    w.typeAt d = 0 ∨ w.typeAt d = 1 := by
  unfold PolygonsWalker.typeAt
  split
  · exact Or.inl rfl
  · exact h

theorem PolygonsWalker.typeAt_eq_one (w : PolygonsWalker) (d : Nat) :
    w.typeAt d = 1 ↔ w.inDefinedType = 1 ∧ w.depthToStop < d := by
  unfold PolygonsWalker.typeAt
  constructor
  · intro h
    split at h
    · omega
    · rename_i hn
      refine ⟨h, ?_⟩
      by_contra hd
      exact hn ⟨by omega, by omega⟩
  · rintro ⟨h1, h2⟩
    rw [if_neg (by omega)]
    exact h1

/-- The type and the stop depth after one call of `for_each`. -/
theorem PolygonsWalker.for_each_type (w : PolygonsWalker) (n : xml_node) (d : Nat) :
    (w.for_each n d).1.inDefinedType = (if n.isRoofSurface then 1 else w.typeAt d) ∧
    (w.for_each n d).1.depthToStop = (if n.isRoofSurface then d else w.depthToStop) := by
  unfold PolygonsWalker.for_each PolygonsWalker.typeAt xml_node.isRoofSurface
  dsimp only
  by_cases hr : n.name = "bldg:RoofSurface"
  · simp [hr]
  · by_cases hp : n.name = "gml:Polygon" ∨ n.name = "gml:Triangle"
    · simp only [hr, hp, if_true, if_false]
      split <;> simp
    · simp only [hr, hp, if_false]
      split <;> simp

theorem PolygonsWalker.for_each_type_cases (w : PolygonsWalker) (n : xml_node) (d : Nat)
    (h : w.inDefinedType = 0 ∨ w.inDefinedType = 1) :
    (w.for_each n d).1.inDefinedType = 0 ∨ (w.for_each n d).1.inDefinedType = 1 := by
  rw [(PolygonsWalker.for_each_type w n d).1]
  split
  · exact Or.inr rfl
  · exact PolygonsWalker.typeAt_cases w h d

theorem PolygonsWalker.run_type_cases (vs : List (xml_node × Nat)) :
    ∀ w : PolygonsWalker, (w.inDefinedType = 0 ∨ w.inDefinedType = 1) →
      ((w.run vs).inDefinedType = 0 ∨ (w.run vs).inDefinedType = 1) := by
  induction vs with
  | nil => intro w h; exact h
  | cons v vs ih =>
    intro w h
    exact ih _ (PolygonsWalker.for_each_type_cases w v.1 v.2 h)

theorem PolygonsWalker.run_append (w : PolygonsWalker) (xs ys : List (xml_node × Nat)) :
    w.run (xs ++ ys) = (w.run xs).run ys := by
  simp [PolygonsWalker.run, List.foldl_append]

/-- One call of `for_each` on a walker whose map is in canonical form. -/
theorem PolygonsWalker.for_each_canon (w : PolygonsWalker) (n : xml_node) (d : Nat)
    (l0 l1 : List xml_node) (hm : w.polygonsByType = PolygonsWalker.canon l0 l1)
    (ht : w.inDefinedType = 0 ∨ w.inDefinedType = 1) :
    (w.for_each n d).1.polygonsByType =
      PolygonsWalker.canon
        (l0 ++ (if n.isPolygon ∧ w.typeAt d = 0 then [n] else []))
        (l1 ++ (if n.isPolygon ∧ w.typeAt d = 1 then [n] else [])) := by
  by_cases hp : n.isPolygon
  · have hr := xml_node.isPolygon_not_isRoofSurface n hp
    unfold xml_node.isRoofSurface at hr
    have hp2 := hp
    unfold xml_node.isPolygon at hp2
    have hk := PolygonsWalker.typeAt_cases w ht d
    have hty : (if w.inDefinedType ≠ 0 ∧ d ≤ w.depthToStop
        then ({ w with inDefinedType := 0 } : PolygonsWalker) else w).inDefinedType
          = w.typeAt d := by
      unfold PolygonsWalker.typeAt
      split <;> rfl
    have hmp : (if w.inDefinedType ≠ 0 ∧ d ≤ w.depthToStop
        then ({ w with inDefinedType := 0 } : PolygonsWalker) else w).polygonsByType
          = PolygonsWalker.canon l0 l1 := by
      split
      · exact hm
      · exact hm
    unfold PolygonsWalker.for_each
    simp only [hr, hp2, if_true, if_false, hty, hmp]
    rcases hk with hk | hk
    · rw [hk]
      by_cases h0 : l0 = [] <;> by_cases h1 : l1 = [] <;>
        simp [PolygonsWalker.canon, StdMap.set, StdMap.count, StdMap.find?, List.lookup,
          h0, h1, hp]
    · rw [hk]
      by_cases h0 : l0 = [] <;> by_cases h1 : l1 = [] <;>
        simp [PolygonsWalker.canon, StdMap.set, StdMap.count, StdMap.find?, List.lookup,
          h0, h1, hp]
  · have hp2 := hp
    unfold xml_node.isPolygon at hp2
    have hmp : (if w.inDefinedType ≠ 0 ∧ d ≤ w.depthToStop
        then ({ w with inDefinedType := 0 } : PolygonsWalker) else w).polygonsByType
          = PolygonsWalker.canon l0 l1 := by
      split
      · exact hm
      · exact hm
    unfold PolygonsWalker.for_each
    by_cases hr : n.name = "bldg:RoofSurface"
    · simp [hr, hp, hmp]
    · simp [hr, hp, hp2, hmp]

/-- The map after a run: the nodes assigned to each key are appended. -/
theorem PolygonsWalker.run_canon (vs : List (xml_node × Nat)) :
    ∀ (w : PolygonsWalker) (l0 l1 : List xml_node),
      w.polygonsByType = PolygonsWalker.canon l0 l1 →
      (w.inDefinedType = 0 ∨ w.inDefinedType = 1) →
      (w.run vs).polygonsByType =
        PolygonsWalker.canon (l0 ++ PolygonsWalker.assigned 0 w vs)
          (l1 ++ PolygonsWalker.assigned 1 w vs) := by
  induction vs with
  | nil => intro w l0 l1 hm _; simpa [PolygonsWalker.run, PolygonsWalker.assigned] using hm
  | cons v vs ih =>
    intro w l0 l1 hm ht
    have h1 := PolygonsWalker.for_each_canon w v.1 v.2 l0 l1 hm ht
    have h2 := PolygonsWalker.for_each_type_cases w v.1 v.2 ht
    have h3 := ih _ _ _ h1 h2
    simp only [PolygonsWalker.run, List.foldl_cons] at h3 ⊢
    rw [h3]
    simp [PolygonsWalker.assigned, List.append_assoc]

theorem PolygonsWalker.recorded_canon (l0 l1 : List xml_node) (w : PolygonsWalker)
    (hm : w.polygonsByType = PolygonsWalker.canon l0 l1) :
    w.recorded 0 = l0 ∧ w.recorded 1 = l1 ∧
    (∀ k, w.polygonsByType.count k ≠ 0 → k = 0 ∨ k = 1) ∧
    (w.polygonsByType.map Prod.snd).flatten = l0 ++ l1 := by
  unfold PolygonsWalker.recorded
  rw [hm]
  by_cases h0 : l0 = [] <;> by_cases h1 : l1 = [] <;>
    simp [PolygonsWalker.canon, StdMap.count, StdMap.find?, List.lookup, h0, h1]
  all_goals
    intro k hk
    by_cases hk0 : k = 0
    · exact Or.inl hk0
    · by_cases hk1 : k = 1
      · exact Or.inr hk1
      · exfalso
        apply hk
        have e0 : (k == 0) = false := by simpa using hk0
        have e1 : (k == 1) = false := by simpa using hk1
        simp only [e0, e1]

theorem sinceRoof_concat (vs : List (xml_node × Nat)) (v : xml_node × Nat) :
    sinceRoof (vs ++ [v]) =
      if v.1.isRoofSurface then some (v, [])
      else (sinceRoof vs).map (fun x => (x.1, x.2 ++ [v])) := by
  induction vs with
  | nil =>
    by_cases h : v.1.isRoofSurface <;> simp [sinceRoof, h]
  | cons a vs ih =>
    rw [List.cons_append, sinceRoof, ih]
    by_cases h : v.1.isRoofSurface
    · simp [h]
    · simp only [h, if_false]
      cases hs : sinceRoof vs with
      | none =>
        by_cases ha : a.1.isRoofSurface <;> simp [sinceRoof, hs, ha]
      | some x => simp [sinceRoof, hs]

/-- What `sinceRoof` returns is the split of the list at its last roof surface. -/
theorem sinceRoof_eq_some (vs : List (xml_node × Nat)) :
    ∀ (R : xml_node × Nat) (A2 : List (xml_node × Nat)),
      sinceRoof vs = some (R, A2) ↔
        ∃ A1, vs = A1 ++ R :: A2 ∧ R.1.isRoofSurface ∧ ∀ M ∈ A2, ¬ M.1.isRoofSurface := by
  induction vs using List.reverseRecOn with
  | nil =>
    intro R A2
    simp [sinceRoof]
  | append_singleton vs v ih =>
    intro R A2
    rw [sinceRoof_concat]
    by_cases h : v.1.isRoofSurface
    · simp only [h, if_true, Option.some.injEq, Prod.mk.injEq]
      constructor
      · rintro ⟨rfl, rfl⟩
        exact ⟨vs, rfl, h, by simp⟩
      · rintro ⟨A1, he, hR, hA2⟩
        rcases List.eq_nil_or_concat A2 with rfl | ⟨A2', b, rfl⟩
        · have := List.append_inj' he (by simp)
          simp at this
          exact ⟨this.2, rfl⟩
        · exfalso
          have he2 : vs ++ [v] = (A1 ++ R :: A2') ++ [b] := by simpa using he
          have := List.append_inj' he2 (by simp)
          simp at this
          apply hA2 b (by simp)
          rw [← this.2]
          exact h
    · simp only [h, if_false]
      constructor
      · intro hs
        cases hsr : sinceRoof vs with
        | none => rw [hsr] at hs; simp at hs
        | some x =>
          rw [hsr] at hs
          simp only [Option.map_some', Option.some.injEq, Prod.mk.injEq] at hs
          obtain ⟨hx1, hx2⟩ := hs
          obtain ⟨A1, he, hR, hA2⟩ := (ih x.1 x.2).1 (by rw [hsr])
          refine ⟨A1, ?_, ?_, ?_⟩
          · rw [he, ← hx1, ← hx2]; simp
          · rw [← hx1]; exact hR
          · intro M hM
            rw [← hx2] at hM
            rcases List.mem_append.1 hM with hM | hM
            · exact hA2 M hM
            · simp at hM; rw [hM]; exact h
      · rintro ⟨A1, he, hR, hA2⟩
        rcases List.eq_nil_or_concat A2 with rfl | ⟨A2', b, rfl⟩
        · exfalso
          have := List.append_inj' he (by simp)
          simp at this
          apply h
          rw [this.2]
          exact hR
        · have he2 : vs ++ [v] = (A1 ++ R :: A2') ++ [b] := by simpa using he
          have := List.append_inj' he2 (by simp)
          simp at this
          obtain ⟨hvs, hv⟩ := this
          have hs : sinceRoof vs = some (R, A2') :=
            (ih R A2').2 ⟨A1, by rw [hvs], hR, fun M hM => hA2 M (by simp [hM])⟩
          rw [hs, hv]
          simp

/-- The type of a fresh walker after the visits `A`: it is 1 exactly when every
visit after the last roof surface is deeper than that roof surface, and then
`depthToStop` is the depth of that roof surface. -/
theorem PolygonsWalker.run_fresh_type (d0 : Nat) (A : List (xml_node × Nat)) :
    (((PolygonsWalker.fresh d0).run A).inDefinedType = 0 ∨
      ((PolygonsWalker.fresh d0).run A).inDefinedType = 1) ∧
    (sinceRoof A = none → ((PolygonsWalker.fresh d0).run A).inDefinedType = 0) ∧
    (∀ R A2, sinceRoof A = some (R, A2) →
      (((PolygonsWalker.fresh d0).run A).inDefinedType = 1 ↔ ∀ M ∈ A2, R.2 < M.2) ∧
      (((PolygonsWalker.fresh d0).run A).inDefinedType = 1 →
        ((PolygonsWalker.fresh d0).run A).depthToStop = R.2)) := by
  induction A using List.reverseRecOn with
  | nil =>
    simp [PolygonsWalker.run, PolygonsWalker.fresh, sinceRoof]
  | append_singleton A v ih =>
    obtain ⟨ih1, ih2, ih3⟩ := ih
    have hrun : (PolygonsWalker.fresh d0).run (A ++ [v]) =
        (((PolygonsWalker.fresh d0).run A).for_each v.1 v.2).1 := by
      simp [PolygonsWalker.run, List.foldl_append]
    rw [hrun]
    have hty := PolygonsWalker.for_each_type ((PolygonsWalker.fresh d0).run A) v.1 v.2
    refine ⟨PolygonsWalker.for_each_type_cases _ _ _ ih1, ?_, ?_⟩
    · intro hs
      rw [sinceRoof_concat] at hs
      by_cases h : v.1.isRoofSurface
      · simp [h] at hs
      · simp only [h, if_false, Option.map_eq_none'] at hs
        rw [hty.1, if_neg h]
        have := ih2 hs
        unfold PolygonsWalker.typeAt
        split
        · rfl
        · exact this
    · intro R A2 hs
      rw [sinceRoof_concat] at hs
      by_cases h : v.1.isRoofSurface
      · simp only [h, if_true, Option.some.injEq, Prod.mk.injEq] at hs
        obtain ⟨rfl, rfl⟩ := hs
        rw [hty.1, hty.2]
        simp [h]
      · simp only [h, if_false] at hs
        cases hsr : sinceRoof A with
        | none => rw [hsr] at hs; simp at hs
        | some x =>
          rw [hsr] at hs
          simp only [Option.map_some', Option.some.injEq, Prod.mk.injEq] at hs
          obtain ⟨hx1, hx2⟩ := hs
          obtain ⟨j1, j2⟩ := ih3 x.1 x.2 (by rw [hsr])
          rw [hty.1, hty.2, if_neg h, if_neg h, PolygonsWalker.typeAt_eq_one, ← hx2, ← hx1]
          constructor
          · constructor
            · rintro ⟨k1, k2⟩ M hM
              rcases List.mem_append.1 hM with hM | hM
              · exact j1.1 k1 M hM
              · simp at hM
                rw [hM, ← j2 k1]
                exact k2
            · intro hall
              have k1 := j1.2 (fun M hM => hall M (by simp [hM]))
              refine ⟨k1, ?_⟩
              rw [j2 k1]
              exact hall v (by simp)
          · rintro ⟨k1, _⟩
            exact j2 k1

/-- The key chosen at a visit that follows the visits `A`. -/
theorem PolygonsWalker.typeAt_run_fresh (d0 : Nat) (A : List (xml_node × Nat)) (d : Nat) :
    (((PolygonsWalker.fresh d0).run A).typeAt d = 0 ∨
      ((PolygonsWalker.fresh d0).run A).typeAt d = 1) ∧
    (((PolygonsWalker.fresh d0).run A).typeAt d = 1 ↔
      ∃ R A2, sinceRoof A = some (R, A2) ∧ (∀ M ∈ A2, R.2 < M.2) ∧ R.2 < d) := by
  obtain ⟨h1, h2, h3⟩ := PolygonsWalker.run_fresh_type d0 A
  refine ⟨PolygonsWalker.typeAt_cases _ h1 d, ?_⟩
  rw [PolygonsWalker.typeAt_eq_one]
  constructor
  · rintro ⟨k1, k2⟩
    cases hs : sinceRoof A with
    | none => have := h2 hs; omega
    | some x =>
      obtain ⟨j1, j2⟩ := h3 x.1 x.2 (by rw [hs])
      exact ⟨x.1, x.2, rfl, j1.1 k1, by rw [← j2 k1]; exact k2⟩
  · rintro ⟨R, A2, hs, hall, hd⟩
    obtain ⟨j1, j2⟩ := h3 R A2 hs
    have k1 := j1.2 hall
    exact ⟨k1, by rw [j2 k1]; exact hd⟩

/-- The head condition of `Nested` for a list `X ++ Y`, when it holds for `X`,
no visit of `Y` lies below `R` and `Y` starts at most as deep as `R`. -/
theorem Nested.head_append (R : xml_node × Nat) (X Y : List (xml_node × Nat))
    (hX : ∀ B1 N C, X = B1 ++ N :: C →
      (R.1.path <+: N.1.path ↔ ∀ M ∈ B1 ++ [N], R.2 < M.2))
    (hY1 : ∀ N ∈ Y, ¬ R.1.path <+: N.1.path)
    (hY2 : ∀ y ys, Y = y :: ys → y.2 ≤ R.2) :
    ∀ B1 N C, X ++ Y = B1 ++ N :: C →
      (R.1.path <+: N.1.path ↔ ∀ M ∈ B1 ++ [N], R.2 < M.2) := by
  intro B1 N C he
  have inY : ∀ a', B1 = X ++ a' → Y = a' ++ N :: C →
      (R.1.path <+: N.1.path ↔ ∀ M ∈ B1 ++ [N], R.2 < M.2) := by
    intro a' hB hYe
    have hN : N ∈ Y := by rw [hYe]; simp
    constructor
    · intro h; exact absurd h (hY1 N hN)
    · intro hall
      exfalso
      cases a' with
      | nil =>
        have := hY2 N C (by simpa using hYe)
        have := hall N (by simp)
        omega
      | cons y ys =>
        have := hY2 y (ys ++ N :: C) (by simpa using hYe)
        have := hall y (by rw [hB]; simp)
        omega
  rcases List.append_eq_append_iff.1 he with ⟨a', hB, hYe⟩ | ⟨c', hXe, hc⟩
  · exact inY a' hB hYe
  · cases c' with
    | nil =>
      exact inY [] (by simpa using hXe.symm) (by simpa using hc.symm)
    | cons c cs =>
      simp only [List.cons_append, List.cons.injEq] at hc
      obtain ⟨rfl, _⟩ := hc
      exact hX B1 N cs hXe

theorem Nested.append (X : List (xml_node × Nat)) :
    ∀ Y : List (xml_node × Nat), Nested X → Nested Y →
      (∀ R ∈ X, ∀ N ∈ Y, ¬ R.1.path <+: N.1.path) →
      (∀ R ∈ X, ∀ y ys, Y = y :: ys → y.2 ≤ R.2) → Nested (X ++ Y) := by
  induction X with
  | nil => intro Y _ hY _ _; simpa using hY
  | cons R X ih =>
    intro Y hX hY h1 h2
    rw [List.cons_append]
    refine ⟨?_, ?_⟩
    · exact Nested.head_append R X Y hX.1 (h1 R (by simp)) (h2 R (by simp))
    · exact ih Y hX.2 hY (fun R' hR' => h1 R' (by simp [hR']))
        (fun R' hR' => h2 R' (by simp [hR']))

theorem Nested.of_append (A : List (xml_node × Nat)) :
    ∀ X : List (xml_node × Nat), Nested (A ++ X) → Nested X := by
  induction A with
  | nil => intro X h; simpa using h
  | cons a A ih => intro X h; exact ih X h.2

/-- A pre-order list is empty or starts at the depth it was asked for. -/
theorem xml_node_struct.preorder_head (t : xml_node_struct) (parent : List Nat) (i depth : Nat) :
    ∀ y ys, t.preorder parent i depth = y :: ys → y.2 = depth := by
  intro y ys h
  cases t with
  | null => simp [xml_node_struct.preorder] at h
  | node nm cv fc ns =>
    simp only [xml_node_struct.preorder, List.cons.injEq] at h
    rw [← h.1]

/-- Pre-order lists are nested. -/
theorem xml_node_struct.preorder_nested (t : xml_node_struct) :
    ∀ (parent : List Nat) (i depth : Nat), Nested (t.preorder parent i depth) := by
  induction t with
  | null => intro parent i depth; simp [xml_node_struct.preorder, Nested]
  | node nm cv fc ns ihc ihs =>
    intro parent i depth
    rw [xml_node_struct.preorder]
    have hsib : ∀ (p : List Nat) (k : Nat) (rest : List Nat),
        ∀ N ∈ ns.preorder parent (i + 1) depth,
          ¬ (parent ++ k :: rest) <+: N.1.path ∨ k ≠ i := by
      intro p k rest N hN
      obtain ⟨j, r, hj, hp, _⟩ := xml_node_struct.preorder_path ns _ _ _ N hN
      by_cases hk : k = i
      · left
        rw [hp, List.prefix_append_right_inj, hk]
        intro hpre
        have := (List.cons_prefix_cons.1 hpre).1
        omega
      · exact Or.inr hk
    refine ⟨?_, ?_⟩
    · apply Nested.head_append
      · intro B1 N C he
        have hmem : ∀ M ∈ B1 ++ [N], M ∈ fc.preorder (parent ++ [i]) 0 (depth + 1) := by
          intro M hM
          rw [he]
          rcases List.mem_append.1 hM with h | h
          · simp [h]
          · simp at h; simp [h]
        constructor
        · intro _ M hM
          obtain ⟨j, r, _, _, hd⟩ := xml_node_struct.preorder_path fc _ _ _ M (hmem M hM)
          simp only
          omega
        · intro _
          obtain ⟨j, r, _, hp, _⟩ :=
            xml_node_struct.preorder_path fc _ _ _ N (hmem N (by simp))
          rw [hp]
          simp
      · intro N hN
        rcases hsib parent i [] N hN with h | h
        · exact h
        · exact absurd rfl h
      · intro y ys hy
        have := xml_node_struct.preorder_head ns _ _ _ y ys hy
        simp only
        omega
    · apply Nested.append _ _ (ihc _ _ _) (ihs _ _ _)
      · intro R hR N hN
        obtain ⟨j, r, _, hp, _⟩ := xml_node_struct.preorder_path fc _ _ _ R hR
        rw [hp]
        rcases hsib parent i (j :: r) N hN with h | h
        · simpa using h
        · exact absurd rfl h
      · intro R hR y ys hy
        obtain ⟨j, r, _, _, hd⟩ := xml_node_struct.preorder_path fc _ _ _ R hR
        have := xml_node_struct.preorder_head ns _ _ _ y ys hy
        omega

theorem xml_node_struct.visits_nested (root : xml_node_struct) : Nested root.visits := by
  cases root with
  | null => simp [xml_node_struct.visits, Nested]
  | node nm cv fc ns => exact xml_node_struct.preorder_nested fc [] 0 0

/-- In the visits of a document, a visit `R` lies on the path to a later visit
`N` exactly when everything visited after `R` up to and including `N` is deeper
than `R`. -/
theorem xml_node_struct.visits_prefix_iff (root : xml_node_struct)
    (A1 A2 C : List (xml_node × Nat)) (R N : xml_node × Nat)
    (h : root.visits = A1 ++ R :: (A2 ++ N :: C)) :
    R.1.path <+: N.1.path ↔ ∀ M ∈ A2 ++ [N], R.2 < M.2 := by
  have hn := xml_node_struct.visits_nested root
  rw [h] at hn
  exact (Nested.of_append A1 _ hn).1 A2 N C rfl

theorem PolygonsWalker.assigned_append (k : Int) (X : List (xml_node × Nat)) :
    ∀ (w : PolygonsWalker) (Y : List (xml_node × Nat)),
      PolygonsWalker.assigned k w (X ++ Y) =
        PolygonsWalker.assigned k w X ++ PolygonsWalker.assigned k (w.run X) Y := by
  induction X with
  | nil => intro w Y; simp [PolygonsWalker.assigned, PolygonsWalker.run]
  | cons x X ih =>
    intro w Y
    simp [PolygonsWalker.assigned, PolygonsWalker.run, ih, List.append_assoc]

theorem PolygonsWalker.assigned_sublist (k : Int) (vs : List (xml_node × Nat)) :
    ∀ w : PolygonsWalker, (PolygonsWalker.assigned k w vs).Sublist (vs.map Prod.fst) := by
  induction vs with
  | nil => intro w; simp [PolygonsWalker.assigned]
  | cons v vs ih =>
    intro w
    simp only [PolygonsWalker.assigned, List.map_cons]
    split
    · exact (ih _).cons₂ _
    · exact (ih _).cons _

theorem PolygonsWalker.assigned_perm (vs : List (xml_node × Nat)) :
    ∀ w : PolygonsWalker, (w.inDefinedType = 0 ∨ w.inDefinedType = 1) →
      (PolygonsWalker.assigned 0 w vs ++ PolygonsWalker.assigned 1 w vs).Perm
        ((vs.map Prod.fst).filter (fun n => n.isPolygon)) := by
  induction vs with
  | nil => intro w _; simp [PolygonsWalker.assigned]
  | cons v vs ih =>
    intro w hw
    have h := ih _ (PolygonsWalker.for_each_type_cases w v.1 v.2 hw)
    simp only [PolygonsWalker.assigned, List.map_cons, List.filter_cons]
    by_cases hp : v.1.isPolygon
    · rcases PolygonsWalker.typeAt_cases w hw v.2 with hk | hk
      · simp only [hp, hk, true_and, if_true, decide_True, List.singleton_append,
          List.cons_append]
        simpa using h
      · simp only [hp, hk, true_and, if_true, decide_True, List.singleton_append]
        simp only [show ¬ ((1 : Int) = 0) by decide, if_false, List.nil_append]
        exact List.perm_middle.trans (List.Perm.cons _ h)
    · simpa [hp] using h

/-- The walker after a document has been traversed. -/
theorem PolygonsWalker.walked_eq (root : xml_node_struct) (d0 : Nat) :
    PolygonsWalker.walked root d0 = (PolygonsWalker.fresh d0).run root.visits ∧
    (root.traverse PolygonsWalker.for_each (PolygonsWalker.fresh d0)).2 = true := by
  unfold PolygonsWalker.walked
  rw [xml_node_struct.traverse_eq_foldl _ PolygonsWalker.for_each_true]
  exact ⟨rfl, rfl⟩

/-- The lists a fresh walker ends with. -/
theorem PolygonsWalker.walked_recorded (root : xml_node_struct) (d0 : Nat) :
    (PolygonsWalker.walked root d0).recorded 0 =
        PolygonsWalker.assigned 0 (PolygonsWalker.fresh d0) root.visits ∧
    (PolygonsWalker.walked root d0).recorded 1 =
        PolygonsWalker.assigned 1 (PolygonsWalker.fresh d0) root.visits ∧
    (∀ k, (PolygonsWalker.walked root d0).polygonsByType.count k ≠ 0 → k = 0 ∨ k = 1) ∧
    ((PolygonsWalker.walked root d0).polygonsByType.map Prod.snd).flatten =
        PolygonsWalker.assigned 0 (PolygonsWalker.fresh d0) root.visits ++
        PolygonsWalker.assigned 1 (PolygonsWalker.fresh d0) root.visits := by
  have hc := PolygonsWalker.run_canon root.visits (PolygonsWalker.fresh d0) [] [] rfl
    (Or.inl rfl)
  rw [← (PolygonsWalker.walked_eq root d0).1] at hc
  simpa using PolygonsWalker.recorded_canon _ _ _ hc

/-- The position of a visit decides the list it is filed in: a polygon visited
after the visits `A` at depth `d` is recorded under the key `typeAt` gives. -/
theorem PolygonsWalker.mem_recorded_iff (root : xml_node_struct) (d0 : Nat)
    (A C : List (xml_node × Nat)) (N : xml_node) (d : Nat)
    (hsplit : root.visits = A ++ (N, d) :: C) (hN : N.isPolygon) :
    (N ∈ (PolygonsWalker.walked root d0).recorded 0 ↔
      ((PolygonsWalker.fresh d0).run A).typeAt d = 0) ∧
    (N ∈ (PolygonsWalker.walked root d0).recorded 1 ↔
      ((PolygonsWalker.fresh d0).run A).typeAt d = 1) := by
  obtain ⟨h0, h1, _, _⟩ := PolygonsWalker.walked_recorded root d0
  have hnd := xml_node_struct.descendants_nodup root
  unfold xml_node_struct.descendants at hnd
  rw [hsplit] at hnd
  simp only [List.map_append, List.map_cons] at hnd
  have hA : N ∉ A.map Prod.fst := by
    intro hmem
    have := (List.nodup_append.1 hnd).2.2 hmem (by simp)
    exact this
  have hC : N ∉ C.map Prod.fst := by
    have := (List.nodup_append.1 hnd).2.1
    exact (List.nodup_cons.1 this).1
  have key : ∀ k : Int, N ∈ PolygonsWalker.assigned k (PolygonsWalker.fresh d0) root.visits ↔
      ((PolygonsWalker.fresh d0).run A).typeAt d = k := by
    intro k
    rw [hsplit, PolygonsWalker.assigned_append]
    simp only [PolygonsWalker.assigned, List.mem_append]
    constructor
    · rintro (h | h | h)
      · exact absurd ((PolygonsWalker.assigned_sublist k A _).subset h) hA
      · split at h
        · rename_i hc; exact hc.2
        · simp at h
      · exact absurd ((PolygonsWalker.assigned_sublist k C _).subset h) hC
    · intro hk
      right; left
      rw [if_pos ⟨hN, hk⟩]
      simp
  rw [h0, h1]
  exact ⟨key 0, key 1⟩

/-- The key chosen at a visit is 1 exactly when the last roof surface visited
before it is one of its ancestors. -/
theorem PolygonsWalker.typeAt_one_iff_last_roof (root : xml_node_struct) (d0 : Nat)
    (A C : List (xml_node × Nat)) (N : xml_node) (d : Nat)
    (hsplit : root.visits = A ++ (N, d) :: C) :
    ((PolygonsWalker.fresh d0).run A).typeAt d = 1 ↔
      ∃ A1 R A2, A = A1 ++ R :: A2 ∧ R.1.isRoofSurface ∧
        (∀ M ∈ A2, ¬ M.1.isRoofSurface) ∧ R.1.isAncestorOf N := by
  have hpaths : ∀ A1 R A2, A = A1 ++ R :: A2 → R.1.path ≠ N.path := by
    intro A1 R A2 hA
    have hnd : (root.visits.map (fun v => v.1.path)).Nodup := by
      cases root with
      | null => simp [xml_node_struct.visits]
      | node nm cv fc ns => exact xml_node_struct.preorder_nodup fc [] 0 0
    rw [hsplit, hA] at hnd
    simp only [List.map_append, List.map_cons, List.append_assoc, List.cons_append] at hnd
    have h2 := (List.nodup_append.1 hnd).2.1
    have h3 := (List.nodup_cons.1 h2).1
    intro he
    apply h3
    rw [he]
    simp
  rw [(PolygonsWalker.typeAt_run_fresh d0 A d).2]
  constructor
  · rintro ⟨R, A2, hs, hall, hd⟩
    obtain ⟨A1, hA, hR, hno⟩ := (sinceRoof_eq_some A R A2).1 hs
    refine ⟨A1, R, A2, hA, hR, hno, ?_, hpaths A1 R A2 hA⟩
    have := xml_node_struct.visits_prefix_iff root A1 A2 C R (N, d)
      (by rw [hsplit, hA]; simp)
    apply this.2
    intro M hM
    rcases List.mem_append.1 hM with h | h
    · exact hall M h
    · simp at h; rw [h]; exact hd
  · rintro ⟨A1, R, A2, hA, hR, hno, hanc, _⟩
    have hs := (sinceRoof_eq_some A R A2).2 ⟨A1, hA, hR, hno⟩
    have := (xml_node_struct.visits_prefix_iff root A1 A2 C R (N, d)
      (by rw [hsplit, hA]; simp)).1 hanc
    exact ⟨R, A2, hs, fun M hM => this M (by simp [hM]), this (N, d) (by simp)⟩

/-- **C1 (as amended).**  Let a fresh `PolygonsWalker` walk a document tree and
let `N` be a visited `gml:Polygon` or `gml:Triangle` node, `A` the visits
before it.  `N` is recorded under key 1 if and only if the last
`bldg:RoofSurface` node visited before `N` (the `R` with no roof surface
between it and `N`) is an ancestor of `N`; otherwise `N` is recorded under
key 0. -/
theorem C1_polygons_walker_last_roof (root : xml_node_struct) (d0 : Nat)
    (A C : List (xml_node × Nat)) (N : xml_node) (d : Nat)
    (hsplit : root.visits = A ++ (N, d) :: C) (hN : N.isPolygon) :
    (N ∈ (PolygonsWalker.walked root d0).recorded 1 ↔
      ∃ A1 R A2, A = A1 ++ R :: A2 ∧ R.1.isRoofSurface ∧
        (∀ M ∈ A2, ¬ M.1.isRoofSurface) ∧ R.1.isAncestorOf N) ∧
    (N ∈ (PolygonsWalker.walked root d0).recorded 0 ↔
      ¬ ∃ A1 R A2, A = A1 ++ R :: A2 ∧ R.1.isRoofSurface ∧
        (∀ M ∈ A2, ¬ M.1.isRoofSurface) ∧ R.1.isAncestorOf N) := by
  obtain ⟨m0, m1⟩ := PolygonsWalker.mem_recorded_iff root d0 A C N d hsplit hN
  have main := PolygonsWalker.typeAt_one_iff_last_roof root d0 A C N d hsplit
  refine ⟨m1.trans main, m0.trans ?_⟩
  rw [← main]
  rcases (PolygonsWalker.typeAt_run_fresh d0 A d).1 with h | h
  · rw [h]; simp
  · rw [h]; simp

/-- The amended C1 at the polygon of `nestedRoofDocument`: the last roof surface
before it is the inner one, which is not its ancestor. -/
theorem C1_polygons_walker_last_roof_witness :
    nestedRoofDocument.visits =
      [(⟨[0], "bldg:RoofSurface", ""⟩, 0), (⟨[0, 0], "bldg:RoofSurface", ""⟩, 1)] ++
        ((⟨[0, 1], "gml:Polygon", ""⟩ : xml_node), 1) :: [] ∧
    (⟨[0, 1], "gml:Polygon", ""⟩ : xml_node).isPolygon ∧
    (((⟨[0, 1], "gml:Polygon", ""⟩ : xml_node) ∈
        (PolygonsWalker.walked nestedRoofDocument 0).recorded 1 ↔
      ∃ A1 R A2,
        [((⟨[0], "bldg:RoofSurface", ""⟩ : xml_node), 0),
          (⟨[0, 0], "bldg:RoofSurface", ""⟩, 1)] = A1 ++ R :: A2 ∧
        R.1.isRoofSurface ∧ (∀ M ∈ A2, ¬ M.1.isRoofSurface) ∧
        R.1.isAncestorOf ⟨[0, 1], "gml:Polygon", ""⟩) ∧
     ((⟨[0, 1], "gml:Polygon", ""⟩ : xml_node) ∈
        (PolygonsWalker.walked nestedRoofDocument 0).recorded 0 ↔
      ¬ ∃ A1 R A2,
        [((⟨[0], "bldg:RoofSurface", ""⟩ : xml_node), 0),
          (⟨[0, 0], "bldg:RoofSurface", ""⟩, 1)] = A1 ++ R :: A2 ∧
        R.1.isRoofSurface ∧ (∀ M ∈ A2, ¬ M.1.isRoofSurface) ∧
        R.1.isAncestorOf ⟨[0, 1], "gml:Polygon", ""⟩)) :=
  ⟨by decide, by decide,
    C1_polygons_walker_last_roof nestedRoofDocument 0 _ [] _ 1 (by decide) (by decide)⟩

/-- **C1 (as stated) fails.**  In `nestedRoofDocument` the polygon is a
descendant of the outer `bldg:RoofSurface` node, yet the walker records it
under key 0 and not under key 1, whatever `depthToStop` held at first. -/
theorem C1_polygons_walker_counterexample :
    (⟨[0, 1], "gml:Polygon", ""⟩ : xml_node) ∈ nestedRoofDocument.descendants ∧
    (⟨[0, 1], "gml:Polygon", ""⟩ : xml_node).isPolygon ∧
    (⟨[0], "bldg:RoofSurface", ""⟩ : xml_node) ∈ nestedRoofDocument.descendants ∧
    (⟨[0], "bldg:RoofSurface", ""⟩ : xml_node).isRoofSurface ∧
    (⟨[0], "bldg:RoofSurface", ""⟩ : xml_node).isAncestorOf ⟨[0, 1], "gml:Polygon", ""⟩ ∧
    (∀ d0, (⟨[0, 1], "gml:Polygon", ""⟩ : xml_node) ∉
      (PolygonsWalker.walked nestedRoofDocument d0).recorded 1) ∧
    (∀ d0, (⟨[0, 1], "gml:Polygon", ""⟩ : xml_node) ∈
      (PolygonsWalker.walked nestedRoofDocument d0).recorded 0) := by
  have h : ∀ d0, (PolygonsWalker.walked nestedRoofDocument d0).polygonsByType =
      [(0, [⟨[0, 1], "gml:Polygon", ""⟩])] := fun d0 => rfl
  refine ⟨by decide, by decide, by decide, by decide, by decide, ?_, ?_⟩
  · intro d0
    unfold PolygonsWalker.recorded
    rw [h d0]
    decide
  · intro d0
    unfold PolygonsWalker.recorded
    rw [h d0]
    decide

/-- **C2.**  After a fresh `PolygonsWalker` has walked a document tree: only the
keys 0 and 1 occur in `polygonsByType`; the lists of the map taken together hold
exactly the visited `gml:Polygon` and `gml:Triangle` nodes, each once (they are
a permutation of those nodes, which are pairwise distinct), and nothing else;
the list under each key is in document order; and a polygon that has no
`bldg:RoofSurface` ancestor is kept under key 0. -/
theorem C2_polygons_walker_partition (root : xml_node_struct) (d0 : Nat) :
    (∀ k, (PolygonsWalker.walked root d0).polygonsByType.count k ≠ 0 → k = 0 ∨ k = 1) ∧
    (((PolygonsWalker.walked root d0).polygonsByType.map Prod.snd).flatten.Perm
      (root.descendants.filter (fun n => n.isPolygon))) ∧
    ((PolygonsWalker.walked root d0).polygonsByType.map Prod.snd).flatten.Nodup ∧
    (∀ n, n ∈ ((PolygonsWalker.walked root d0).polygonsByType.map Prod.snd).flatten ↔
      n ∈ root.descendants ∧ (n.name = "gml:Polygon" ∨ n.name = "gml:Triangle")) ∧
    ((PolygonsWalker.walked root d0).recorded 0).Sublist root.descendants ∧
    ((PolygonsWalker.walked root d0).recorded 1).Sublist root.descendants ∧
    (∀ n ∈ root.descendants, n.isPolygon →
      (∀ r ∈ root.descendants, r.isRoofSurface → ¬ r.isAncestorOf n) →
        n ∈ (PolygonsWalker.walked root d0).recorded 0) ∧
    (root.traverse PolygonsWalker.for_each (PolygonsWalker.fresh d0)).2 = true := by
  obtain ⟨h0, h1, hk, hf⟩ := PolygonsWalker.walked_recorded root d0
  have hperm := PolygonsWalker.assigned_perm root.visits (PolygonsWalker.fresh d0) (Or.inl rfl)
  have hnd := xml_node_struct.descendants_nodup root
  refine ⟨hk, ?_, ?_, ?_, ?_, ?_, ?_, (PolygonsWalker.walked_eq root d0).2⟩
  · rw [hf]; exact hperm
  · rw [hf]
    exact (List.Perm.nodup_iff hperm).2 (hnd.filter _)
  · intro n
    rw [hf, List.Perm.mem_iff hperm, List.mem_filter]
    simp [xml_node_struct.descendants, xml_node.isPolygon]
  · rw [h0]; exact PolygonsWalker.assigned_sublist 0 _ _
  · rw [h1]; exact PolygonsWalker.assigned_sublist 1 _ _
  · intro n hn hp hno
    unfold xml_node_struct.descendants at hn
    obtain ⟨v, hv, rfl⟩ := List.mem_map.1 hn
    obtain ⟨A, C, hsplit⟩ := List.append_of_mem hv
    apply (PolygonsWalker.mem_recorded_iff root d0 A C v.1 v.2 hsplit hp).1.2
    rcases (PolygonsWalker.typeAt_run_fresh d0 A v.2).1 with h | h
    · exact h
    exfalso
    obtain ⟨A1, R, A2, hA, hR, _, hanc⟩ :=
      (PolygonsWalker.typeAt_one_iff_last_roof root d0 A C v.1 v.2 hsplit).1 h
    apply hno R.1 _ hR hanc
    unfold xml_node_struct.descendants
    apply List.mem_map.2
    refine ⟨R, ?_, rfl⟩
    rw [hsplit, hA]
    simp

/-! ### PointsWalker -/

theorem tokens_dropWhile (cs : List Char) : tokens (cs.dropWhile isspace) = tokens cs := by
  induction cs with
  | nil => rfl
  | cons c cs ih =>
    by_cases h : isspace c = true
    · simp [List.dropWhile, tokens, h, ih]
    · simp [List.dropWhile, h]

theorem tokens_cons_nonspace (cs : List Char) :
    ∀ c : Char, isspace c = false →
      tokens (c :: cs) =
        String.mk ((c :: cs).takeWhile (fun c => !isspace c)) ::
          tokens ((c :: cs).dropWhile (fun c => !isspace c)) := by
  induction cs with
  | nil => intro c h; simp [tokens, h, List.takeWhile, List.dropWhile]
  | cons c1 cs ih =>
    intro c h
    by_cases h1 : isspace c1 = true
    · simp [tokens, h, h1, List.takeWhile, List.dropWhile]
    · have h1f : isspace c1 = false := by simpa using h1
      have := ih c1 h1f
      rw [tokens]
      simp only [h, h1f, if_false, Bool.false_eq_true]
      rw [this]
      simp [List.takeWhile, List.dropWhile, h, h1f]

theorem dropWhile_isspace_head (cs : List Char) (c : Char) (rest : List Char)
    (h : cs.dropWhile isspace = c :: rest) : isspace c = false := by
  induction cs with
  | nil => simp at h
  | cons a cs ih =>
    by_cases ha : isspace a = true
    · simp only [List.dropWhile, ha] at h
      exact ih h
    · simp only [List.dropWhile, ha] at h
      simp only [List.cons.injEq] at h
      rw [← h.1]
      simpa using ha

/-- With enough rounds the loop of `for_each` runs the body on the tokens of the
text, one after the other, and ends without running out of rounds. -/
theorem PointsWalker.loop_eq_feed {α : Type} [Zero α] (stof : String → Except StofError α)
    (fuel : Nat) :
    ∀ (iss : istringstream) (r : PointsRun α),
      iss.failbit = false → (iss.eofbit = true → iss.buf = []) →
      iss.buf.length + 1 ≤ fuel → r.fault = none →
      PointsWalker.loop stof fuel iss r = PointsWalker.feed stof r (tokens iss.buf) := by
  induction fuel with
  | zero => intro iss r _ _ h _; omega
  | succ fuel ih =>
    intro iss r hf he hlen hr
    rw [PointsWalker.loop]
    by_cases heof : iss.eofbit = true
    · have hb := he heof
      simp [istringstream.extract, heof, hb, tokens, PointsWalker.feed, hr]
    · have heof2 : iss.eofbit = false := by simpa using heof
      cases hb : iss.buf.dropWhile isspace with
      | nil =>
        have ht : tokens iss.buf = [] := by
          rw [← tokens_dropWhile, hb]; rfl
        simp [istringstream.extract, heof2, hf, hb, ht, PointsWalker.feed, hr]
      | cons c cs =>
        have hc := dropWhile_isspace_head _ _ _ hb
        have ht : tokens iss.buf =
            String.mk ((c :: cs).takeWhile (fun c => !isspace c)) ::
              tokens ((c :: cs).dropWhile (fun c => !isspace c)) := by
          rw [← tokens_dropWhile, hb]
          exact tokens_cons_nonspace cs c hc
        have htw : (c :: cs).takeWhile (fun c => !isspace c) =
            c :: cs.takeWhile (fun c => !isspace c) := by
          simp [List.takeWhile, hc]
        have hdw : (c :: cs).dropWhile (fun c => !isspace c) =
            cs.dropWhile (fun c => !isspace c) := by
          simp [List.dropWhile, hc]
        rw [ht, PointsWalker.feed]
        simp only [istringstream.extract, heof2, hf, hb, Bool.or_self, Bool.false_eq_true,
          if_false]
        have hlen1 : (String.mk ((c :: cs).takeWhile (fun c => !isspace c))).length > 0 := by
          rw [htw]; simp [String.length]
        simp only [hlen1, if_true]
        split
        · rfl
        · rename_i hnf
          have hfail : ((c :: cs).takeWhile (fun c => !isspace c)).isEmpty = false := by
            rw [htw]; rfl
          simp only [hfail, Bool.false_eq_true, if_false]
          apply ih
          · rfl
          · intro h
            simpa using h
          · have h1 : ((c :: cs).dropWhile (fun c => !isspace c)).length ≤ (c :: cs).length :=
              (List.dropWhile_sublist _).length_le
            have h2 : (iss.buf.dropWhile isspace).length ≤ iss.buf.length :=
              (List.dropWhile_sublist _).length_le
            rw [hb] at h2
            show ((c :: cs).dropWhile (fun c => !isspace c)).length + 1 ≤ fuel
            rw [hdw] at h1 ⊢
            have h3 : (cs.dropWhile (fun c => !isspace c)).length ≤ cs.length :=
              (List.dropWhile_sublist _).length_le
            simp only [List.length_cons] at h2 hlen
            omega
          · simpa using hnf

/-- The result of `for_each` on a `gml:pos` or `gml:posList` node, in terms of
the tokens of its text. -/
theorem PointsWalker.for_each_eq {α : Type} [Zero α] (stof : String → Except StofError α)
    (w : PointsWalker α) (node : xml_node)
    (hname : node.name = "gml:pos" ∨ node.name = "gml:posList") :
    PointsWalker.for_each stof w node =
      PointsWalker.finish (PointsWalker.feed stof
        { points := w.points, currentCoordinate := 0, trace := [], fault := none }
        (tokens node.child_value.data)) := by
  have h := PointsWalker.loop_eq_feed stof (node.child_value.length + 1)
    (istringstream.ofString node.child_value)
    { points := w.points, currentCoordinate := 0, trace := [], fault := none }
    rfl (by intro h; simp [istringstream.ofString] at h)
    (Nat.le_refl _) rfl
  unfold PointsWalker.for_each
  rw [if_pos hname, h]
  rfl

/-- The body of the loop on a token that `stof` converts, at coordinate 0. -/
theorem PointsWalker.token_zero {α : Type} [Zero α] (stof : String → Except StofError α)
    (pts : List (CityGMLPoint α)) (tr : List Event) (t : String) (v : α)
    (h : stof t = .ok v) :
    PointsWalker.token stof ⟨pts, 0, tr, none⟩ t =
      ⟨pts ++ [⟨(v, 0, 0)⟩], 1,
        tr ++ [Event.push_back, Event.back (pts.length + 1), Event.write 0], none⟩ := by
  simp [PointsWalker.token, h, CityGMLPoint.set, CityGMLPoint.zero, List.getLast?_append,
    List.dropLast_append_of_ne_nil]

/-- The body of the loop on a token that `stof` converts, at coordinate 1. -/
theorem PointsWalker.token_one {α : Type} [Zero α] (stof : String → Except StofError α)
    (pts : List (CityGMLPoint α)) (p : CityGMLPoint α) (tr : List Event) (t : String) (v : α)
    (h : stof t = .ok v) :
    PointsWalker.token stof ⟨pts ++ [p], 1, tr, none⟩ t =
      ⟨pts ++ [⟨(p.coordinates.1, v, p.coordinates.2.2)⟩], 2,
        tr ++ [Event.back (pts.length + 1), Event.write 1], none⟩ := by
  simp [PointsWalker.token, h, CityGMLPoint.set, List.getLast?_append,
    List.dropLast_append_of_ne_nil]

/-- The body of the loop on a token that `stof` converts, at coordinate 2. -/
theorem PointsWalker.token_two {α : Type} [Zero α] (stof : String → Except StofError α)
    (pts : List (CityGMLPoint α)) (p : CityGMLPoint α) (tr : List Event) (t : String) (v : α)
    (h : stof t = .ok v) :
    PointsWalker.token stof ⟨pts ++ [p], 2, tr, none⟩ t =
      ⟨pts ++ [⟨(p.coordinates.1, p.coordinates.2.1, v)⟩], 0,
        tr ++ [Event.back (pts.length + 1), Event.write 2], none⟩ := by
  simp [PointsWalker.token, h, CityGMLPoint.set, List.getLast?_append,
    List.dropLast_append_of_ne_nil]

theorem List.map_eq_cons_split {β γ : Type} (f : β → γ) (l : List β) (x : γ) (xs : List γ)
    (h : l.map f = x :: xs) : ∃ t ts, l = t :: ts ∧ f t = x ∧ ts.map f = xs := by
  cases l with
  | nil => simp at h
  | cons t ts =>
    simp only [List.map_cons, List.cons.injEq] at h
    exact ⟨t, ts, rfl, h.1, h.2⟩

/-- Feeding tokens that `stof` converts to the values `vals`: the complete
triples become points, in order, after the points already there, and the
values left over sit in one more, partly filled point. -/
theorem PointsWalker.feed_numeric {α : Type} [Zero α] (stof : String → Except StofError α) :
    ∀ (vals : List α) (toks : List String) (pts : List (CityGMLPoint α)) (tr : List Event),
      toks.map stof = vals.map Except.ok →
      (PointsWalker.feed stof ⟨pts, 0, tr, none⟩ toks).points =
          pts ++ group3 vals ++ pending3 vals ∧
      (PointsWalker.feed stof ⟨pts, 0, tr, none⟩ toks).currentCoordinate = vals.length % 3 ∧
      (PointsWalker.feed stof ⟨pts, 0, tr, none⟩ toks).fault = none
  | [], toks, pts, tr, h => by
    have : toks = [] := by simpa using h
    subst this
    simp [PointsWalker.feed, group3, pending3]
  | [a], toks, pts, tr, h => by
    obtain ⟨t1, ts, rfl, h1, h⟩ := List.map_eq_cons_split _ _ _ _ h
    have : ts = [] := by simpa using h
    subst this
    simp [PointsWalker.feed, PointsWalker.token_zero stof pts tr t1 a h1, group3, pending3]
  | [a, b], toks, pts, tr, h => by
    obtain ⟨t1, ts, rfl, h1, h⟩ := List.map_eq_cons_split _ _ _ _ h
    obtain ⟨t2, ts, rfl, h2, h⟩ := List.map_eq_cons_split _ _ _ _ h
    have : ts = [] := by simpa using h
    subst this
    simp [PointsWalker.feed, PointsWalker.token_zero stof pts tr t1 a h1,
      PointsWalker.token_one stof pts _ _ t2 b h2, group3, pending3]
  | a :: b :: c :: rest, toks, pts, tr, h => by
    obtain ⟨t1, ts, rfl, h1, h⟩ := List.map_eq_cons_split _ _ _ _ h
    obtain ⟨t2, ts, rfl, h2, h⟩ := List.map_eq_cons_split _ _ _ _ h
    obtain ⟨t3, ts, rfl, h3, h4⟩ := List.map_eq_cons_split _ _ _ _ h
    have ih := PointsWalker.feed_numeric stof rest ts (pts ++ [⟨(a, b, c)⟩])
        (tr ++ [Event.push_back, Event.back (pts.length + 1), Event.write 0] ++
          [Event.back (pts.length + 1), Event.write 1] ++
          [Event.back (pts.length + 1), Event.write 2]) h4
    have e : (rest.length + 1 + 1 + 1) % 3 = rest.length % 3 := by omega
    simp only [PointsWalker.feed, PointsWalker.token_zero stof pts tr t1 a h1,
      PointsWalker.token_one stof pts _ _ t2 b h2,
      PointsWalker.token_two stof pts _ _ t3 c h3, Option.isSome_none,
      Bool.false_eq_true, if_false, List.length_cons, e, group3, pending3]
    simpa [List.append_assoc] using ih

theorem group3_length {α : Type} : ∀ vals : List α, (group3 vals).length = vals.length / 3
  | [] => by simp [group3]
  | [_] => by simp [group3]
  | [_, _] => by simp [group3]
  | _ :: _ :: _ :: rest => by
    simp only [group3, List.length_cons, group3_length rest]
    omega

theorem pending3_eq_nil {α : Type} [Zero α] :
    ∀ vals : List α, (pending3 vals = [] ↔ vals.length % 3 = 0) ∧
      (vals.length % 3 ≠ 0 → ∃ p, pending3 vals = [p])
  | [] => by simp [pending3]
  | [_] => by simp [pending3]
  | [_, _] => by simp [pending3]
  | _ :: _ :: _ :: rest => by
    have := pending3_eq_nil rest
    simp only [pending3, List.length_cons]
    have e : (rest.length + 1 + 1 + 1) % 3 = rest.length % 3 := by omega
    rw [e]
    exact this

/-- The `i`-th point of `group3 vals` holds the values number `3 i`, `3 i + 1`
and `3 i + 2`. -/
theorem group3_get {α : Type} : ∀ (vals : List α) (i : Nat), i < vals.length / 3 →
    ∃ a b c, vals[3 * i]? = some a ∧ vals[3 * i + 1]? = some b ∧ vals[3 * i + 2]? = some c ∧
      (group3 vals)[i]? = some ⟨(a, b, c)⟩
  | [], i, h => by simp only [List.length_nil] at h; omega
  | [_], i, h => by simp only [List.length_cons, List.length_nil] at h; omega
  | [_, _], i, h => by simp only [List.length_cons, List.length_nil] at h; omega
  | a :: b :: c :: rest, i, h => by
    cases i with
    | zero => exact ⟨a, b, c, by simp [group3]⟩
    | succ i =>
      have hi : i < rest.length / 3 := by
        simp only [List.length_cons] at h
        omega
      obtain ⟨x, y, z, h1, h2, h3, h4⟩ := group3_get rest i hi
      refine ⟨x, y, z, ?_, ?_, ?_, ?_⟩
      · rw [show 3 * (i + 1) = 3 * i + 1 + 1 + 1 by ring]
        simpa using h1
      · rw [show 3 * (i + 1) + 1 = 3 * i + 1 + 1 + 1 + 1 by ring]
        simpa using h2
      · rw [show 3 * (i + 1) + 2 = 3 * i + 2 + 1 + 1 + 1 by ring]
        simpa using h3
      · simpa [group3] using h4

/-- The result of `for_each` on a `gml:pos` or `gml:posList` node all of whose
tokens `stof` converts: the complete triples are appended as points, a trailing
partly filled point is popped, and the function returns `true`. -/
theorem PointsWalker.for_each_numeric {α : Type} [Zero α]
    (stof : String → Except StofError α) (w : PointsWalker α) (node : xml_node)
    (vals : List α) (hname : node.name = "gml:pos" ∨ node.name = "gml:posList")
    (hvals : (tokens node.child_value.data).map stof = vals.map Except.ok) :
    (PointsWalker.for_each stof w node).walker.points = w.points ++ group3 vals ∧
    (PointsWalker.for_each stof w node).outcome = .ok true := by
  rw [PointsWalker.for_each_eq stof w node hname]
  obtain ⟨h1, h2, h3⟩ := PointsWalker.feed_numeric stof vals _ w.points [] hvals
  obtain ⟨p1, p2⟩ := pending3_eq_nil vals
  generalize PointsWalker.feed stof
    { points := w.points, currentCoordinate := 0, trace := [], fault := none }
    (tokens node.child_value.data) = r at h1 h2 h3
  obtain ⟨rp, rc, rt, rf⟩ := r
  simp only at h1 h2 h3
  subst h1 h2 h3
  by_cases hz : vals.length % 3 = 0
  · have := p1.2 hz
    simp [PointsWalker.finish, hz, this]
  · obtain ⟨p, hp⟩ := p2 hz
    simp [PointsWalker.finish, hz, hp, List.dropLast_append_of_ne_nil]

theorem CityGMLPoint.set_isSome {α : Type} (p : CityGMLPoint α) (i : Nat) (v : α)
    (h : i < 3) : ∃ q, p.set i v = some q := by
  match i, h with
  | 0, _ => exact ⟨_, rfl⟩
  | 1, _ => exact ⟨_, rfl⟩
  | 2, _ => exact ⟨_, rfl⟩

/-- The body of the loop keeps the invariant. -/
theorem PointsWalker.token_inv {α : Type} [Zero α] (stof : String → Except StofError α)
    (n0 : Nat) (r : PointsRun α) (t : String) (h : r.Inv n0) :
    (PointsWalker.token stof r t).Inv n0 := by
  obtain ⟨h1, h2, h3, h4, h5⟩ := h
  unfold PointsWalker.token
  generalize hr1 : (if r.currentCoordinate = 0 then
      ({ r with points := r.points ++ [CityGMLPoint.zero],
                trace := r.trace ++ [Event.push_back] } : PointsRun α)
    else r) = r1
  have i1 : r1.currentCoordinate = r.currentCoordinate := by
    rw [← hr1]; split <;> rfl
  have i2 : ∀ e ∈ r1.trace, e.safe n0 := by
    rw [← hr1]
    split
    · intro e he
      simp only [List.mem_append, List.mem_singleton] at he
      rcases he with he | he
      · exact h2 e he
      · rw [he]; trivial
    · exact h2
  have i3 : n0 < r1.points.length := by
    rw [← hr1]
    split
    · simp only [List.length_append, List.length_singleton]; omega
    · rename_i hc; exact h4 hc
  have i5 : r1.fault = r.fault := by
    rw [← hr1]; split <;> rfl
  dsimp only
  cases hl : r1.points.getLast? with
  | none =>
    rw [List.getLast?_eq_none_iff] at hl
    rw [hl] at i3
    simp at i3
  | some p =>
    dsimp only
    have safeBack : ∀ e ∈ r1.trace ++ [Event.back r1.points.length], e.safe n0 := by
      intro e he
      simp only [List.mem_append, List.mem_singleton] at he
      rcases he with he | he
      · exact i2 e he
      · rw [he]; exact i3
    cases hs : stof t with
    | error e =>
      dsimp only
      refine ⟨by rw [i1]; exact h1, safeBack, Nat.le_of_lt i3, fun _ => i3, Or.inr ⟨e, rfl⟩⟩
    | ok v =>
      dsimp only
      obtain ⟨q, hq⟩ := CityGMLPoint.set_isSome p r1.currentCoordinate v (by rw [i1]; exact h1)
      rw [hq]
      dsimp only
      have hlen : (r1.points.dropLast ++ [q]).length = r1.points.length := by
        simp only [List.length_append, List.length_dropLast, List.length_singleton]
        omega
      refine ⟨Nat.mod_lt _ (by decide), ?_, by rw [hlen]; omega, fun _ => by rw [hlen]; exact i3,
        by rw [i5]; exact h5⟩
      intro e he
      simp only [List.mem_append, List.mem_singleton] at he
      rcases he with (he | he) | he
      · exact i2 e he
      · rw [he]; exact i3
      · rw [he]; show r1.currentCoordinate < 3; rw [i1]; exact h1

theorem PointsWalker.feed_inv {α : Type} [Zero α] (stof : String → Except StofError α)
    (n0 : Nat) (ts : List String) :
    ∀ r : PointsRun α, r.Inv n0 → (PointsWalker.feed stof r ts).Inv n0 := by
  induction ts with
  | nil => intro r h; exact h
  | cons t ts ih =>
    intro r h
    rw [PointsWalker.feed]
    split
    · exact PointsWalker.token_inv stof n0 r t h
    · exact ih _ (PointsWalker.token_inv stof n0 r t h)

/-- The end of `for_each` on a run that satisfies the invariant. -/
theorem PointsWalker.finish_inv {α : Type} (n0 : Nat) (r : PointsRun α) (h : r.Inv n0) :
    (∀ e ∈ (PointsWalker.finish r).trace, e.safe n0) ∧
    ((PointsWalker.finish r).outcome = .ok true ∨
      ∃ e, (PointsWalker.finish r).outcome = .error (Fault.stof e)) := by
  obtain ⟨h1, h2, h3, h4, h5⟩ := h
  unfold PointsWalker.finish
  rcases h5 with h5 | ⟨e, h5⟩
  · rw [h5]
    dsimp only
    by_cases hc : r.currentCoordinate = 0
    · rw [if_neg (not_not.2 hc)]
      exact ⟨h2, Or.inl rfl⟩
    · have hlen := h4 hc
      have hne : r.points.isEmpty = false := by
        cases hp : r.points with
        | nil => rw [hp] at hlen; simp at hlen
        | cons _ _ => rfl
      rw [if_pos hc, hne, if_neg Bool.false_ne_true]
      refine ⟨?_, Or.inl rfl⟩
      intro e he
      simp only [List.mem_append, List.mem_cons, List.mem_singleton, List.mem_nil_iff,
        or_false] at he
      rcases he with he | he | he
      · exact h2 e he
      · rw [he]; trivial
      · rw [he]; exact hlen
  · rw [h5]
    exact ⟨h2, Or.inr ⟨e, rfl⟩⟩

/-- The operations of `for_each` on the text `1 2`, for a walker that holds no
point: one point is pushed, written at the indices 0 and 1 through `back()`,
and popped again after the message. -/
theorem PointsWalker.trace_of_two_tokens :
    (PointsWalker.for_each stofDigits ⟨[]⟩ ⟨[0], "gml:pos", "1 2"⟩).trace =
      [Event.push_back, Event.back 1, Event.write 0, Event.back 1, Event.write 1,
        Event.cout_wrong_number, Event.pop_back 1] := by
  decide

/-- **C3.**  When the text of a `gml:pos` or `gml:posList` node consists of
`3 n` white-space separated tokens that `std::stof` converts (to the values
`vals`), `for_each` returns `true` and leaves `points` as the old list followed
by exactly `n` new points, the `i`-th of them holding the values of the tokens
`3 i`, `3 i + 1` and `3 i + 2` in that order. -/
theorem C3_points_walker_triples {α : Type} [Zero α] (stof : String → Except StofError α)
    (w : PointsWalker α) (node : xml_node) (vals : List α) (n : Nat)
    (hname : node.name = "gml:pos" ∨ node.name = "gml:posList")
    (hnum : (tokens node.child_value.data).map stof = vals.map Except.ok)
    (hlen : vals.length = 3 * n) :
    ∃ new : List (CityGMLPoint α),
      (PointsWalker.for_each stof w node).walker.points = w.points ++ new ∧
      new.length = n ∧
      (∀ i, i < n → ∃ a b c, vals[3 * i]? = some a ∧ vals[3 * i + 1]? = some b ∧
        vals[3 * i + 2]? = some c ∧ new[i]? = some ⟨(a, b, c)⟩) ∧
      (PointsWalker.for_each stof w node).outcome = .ok true := by
  obtain ⟨h1, h2⟩ := PointsWalker.for_each_numeric stof w node vals hname hnum
  have hl : vals.length / 3 = n := by omega
  refine ⟨group3 vals, h1, ?_, ?_, h2⟩
  · rw [group3_length, hl]
  · intro i hi
    exact group3_get vals i (by omega)

/-- C3 at a `gml:posList` node with six tokens, for a walker that already holds
a point. -/
theorem C3_points_walker_triples_witness :
    (("gml:posList" : String) = "gml:pos" ∨ ("gml:posList" : String) = "gml:posList") ∧
    (tokens (" 1 2 3\n4 5 6 " : String).data).map stofDigits =
      ([1, 2, 3, 4, 5, 6] : List Int).map Except.ok ∧
    ([1, 2, 3, 4, 5, 6] : List Int).length = 3 * 2 ∧
    ∃ new : List (CityGMLPoint Int),
      (PointsWalker.for_each stofDigits ⟨[⟨(7, 8, 9)⟩]⟩
        ⟨[0], "gml:posList", " 1 2 3\n4 5 6 "⟩).walker.points = [⟨(7, 8, 9)⟩] ++ new ∧
      new.length = 2 ∧
      (∀ i, i < 2 → ∃ a b c, ([1, 2, 3, 4, 5, 6] : List Int)[3 * i]? = some a ∧
        ([1, 2, 3, 4, 5, 6] : List Int)[3 * i + 1]? = some b ∧
        ([1, 2, 3, 4, 5, 6] : List Int)[3 * i + 2]? = some c ∧ new[i]? = some ⟨(a, b, c)⟩) ∧
      (PointsWalker.for_each stofDigits ⟨[⟨(7, 8, 9)⟩]⟩
        ⟨[0], "gml:posList", " 1 2 3\n4 5 6 "⟩).outcome = .ok true :=
  ⟨by decide, by decide, by decide,
    C3_points_walker_triples stofDigits ⟨[⟨(7, 8, 9)⟩]⟩
      ⟨[0], "gml:posList", " 1 2 3\n4 5 6 "⟩ [1, 2, 3, 4, 5, 6] 2
      (by decide) (by decide) (by decide)⟩

/-- **C9.**  When the text of a `gml:pos` or `gml:posList` node consists of `k`
white-space separated tokens that `std::stof` converts and `k` is not a
multiple of 3, `for_each` returns `true` and leaves `points` as the old list
followed by exactly `k / 3` new points, the `i`-th of them holding the values
of the tokens `3 i`, `3 i + 1` and `3 i + 2`: the one or two values left over
are dropped with the partly filled point that held them. -/
theorem C9_points_walker_remainder {α : Type} [Zero α] (stof : String → Except StofError α)
    (w : PointsWalker α) (node : xml_node) (vals : List α)
    (hname : node.name = "gml:pos" ∨ node.name = "gml:posList")
    (hnum : (tokens node.child_value.data).map stof = vals.map Except.ok)
    (hk : vals.length % 3 ≠ 0) :
    ∃ new : List (CityGMLPoint α),
      (PointsWalker.for_each stof w node).walker.points = w.points ++ new ∧
      new.length = vals.length / 3 ∧
      (∀ i, i < vals.length / 3 → ∃ a b c, vals[3 * i]? = some a ∧
        vals[3 * i + 1]? = some b ∧ vals[3 * i + 2]? = some c ∧
        new[i]? = some ⟨(a, b, c)⟩) ∧
      Event.cout_wrong_number ∈ (PointsWalker.for_each stof w node).trace ∧
      (PointsWalker.for_each stof w node).outcome = .ok true := by
  obtain ⟨h1, h2⟩ := PointsWalker.for_each_numeric stof w node vals hname hnum
  refine ⟨group3 vals, h1, group3_length vals, fun i hi => group3_get vals i hi, ?_, h2⟩
  rw [PointsWalker.for_each_eq stof w node hname]
  obtain ⟨k1, k2, k3⟩ := PointsWalker.feed_numeric stof vals _ w.points [] hnum
  obtain ⟨_, p2⟩ := pending3_eq_nil vals
  obtain ⟨p, hp⟩ := p2 hk
  generalize PointsWalker.feed stof
    { points := w.points, currentCoordinate := 0, trace := [], fault := none }
    (tokens node.child_value.data) = r at k1 k2 k3
  obtain ⟨rp, rc, rt, rf⟩ := r
  simp only at k1 k2 k3
  subst k1 k2 k3
  simp [PointsWalker.finish, hk, hp]

/-- C9 at a `gml:pos` node with five tokens. -/
theorem C9_points_walker_remainder_witness :
    (("gml:pos" : String) = "gml:pos" ∨ ("gml:pos" : String) = "gml:posList") ∧
    (tokens ("1 2 3 4 5" : String).data).map stofDigits =
      ([1, 2, 3, 4, 5] : List Int).map Except.ok ∧
    ([1, 2, 3, 4, 5] : List Int).length % 3 ≠ 0 ∧
    ∃ new : List (CityGMLPoint Int),
      (PointsWalker.for_each stofDigits ⟨[⟨(7, 8, 9)⟩]⟩
        ⟨[0], "gml:pos", "1 2 3 4 5"⟩).walker.points = [⟨(7, 8, 9)⟩] ++ new ∧
      new.length = ([1, 2, 3, 4, 5] : List Int).length / 3 ∧
      (∀ i, i < ([1, 2, 3, 4, 5] : List Int).length / 3 →
        ∃ a b c, ([1, 2, 3, 4, 5] : List Int)[3 * i]? = some a ∧
        ([1, 2, 3, 4, 5] : List Int)[3 * i + 1]? = some b ∧
        ([1, 2, 3, 4, 5] : List Int)[3 * i + 2]? = some c ∧ new[i]? = some ⟨(a, b, c)⟩) ∧
      Event.cout_wrong_number ∈ (PointsWalker.for_each stofDigits ⟨[⟨(7, 8, 9)⟩]⟩
        ⟨[0], "gml:pos", "1 2 3 4 5"⟩).trace ∧
      (PointsWalker.for_each stofDigits ⟨[⟨(7, 8, 9)⟩]⟩
        ⟨[0], "gml:pos", "1 2 3 4 5"⟩).outcome = .ok true :=
  ⟨by decide, by decide, by decide,
    C9_points_walker_remainder stofDigits ⟨[⟨(7, 8, 9)⟩]⟩
      ⟨[0], "gml:pos", "1 2 3 4 5"⟩ [1, 2, 3, 4, 5] (by decide) (by decide) (by decide)⟩

/-- **C10.**  In every call of `for_each`, whatever the conversion `std::stof`
does, whatever the text of the node and whatever `points` held before: every
coordinate index written is 0, 1 or 2; at every call of `points.back()` and of
`points.pop_back()` the list holds more points than it held when the node was
entered, so it is not empty and its last point was pushed for this node; and
the call ends by returning `true` or by an exception of `std::stof`, never by
undefined behaviour. -/
theorem C10_points_walker_safety {α : Type} [Zero α] (stof : String → Except StofError α)
    (w : PointsWalker α) (node : xml_node) :
    (∀ i, Event.write i ∈ (PointsWalker.for_each stof w node).trace → i < 3) ∧
    (∀ n, Event.back n ∈ (PointsWalker.for_each stof w node).trace →
      w.points.length < n) ∧
    (∀ n, Event.pop_back n ∈ (PointsWalker.for_each stof w node).trace →
      w.points.length < n) ∧
    ((PointsWalker.for_each stof w node).outcome = .ok true ∨
      ∃ e, (PointsWalker.for_each stof w node).outcome = .error (Fault.stof e)) := by
  by_cases hname : node.name = "gml:pos" ∨ node.name = "gml:posList"
  · rw [PointsWalker.for_each_eq stof w node hname]
    have h0 : PointsRun.Inv w.points.length
        ({ points := w.points, currentCoordinate := 0, trace := [], fault := none } :
          PointsRun α) := by
      refine ⟨Nat.zero_lt_succ 2, ?_, le_refl _, fun h => absurd rfl h, Or.inl rfl⟩
      intro e he
      simp at he
    have h1 := PointsWalker.feed_inv stof w.points.length (tokens node.child_value.data) _ h0
    obtain ⟨h2, h3⟩ := PointsWalker.finish_inv _ _ h1
    exact ⟨fun i hi => h2 _ hi, fun n hn => h2 _ hn, fun n hn => h2 _ hn, h3⟩
  · unfold PointsWalker.for_each
    rw [if_neg hname]
    simp

/-- **C6 fails on the code.**  On the text `1 2 abc` the conversion of `abc`
throws `std::invalid_argument`; `for_each` does not catch it, so the call ends
with that exception instead of returning `true`, and the point pushed for the
first two coordinates stays in `points`, partly filled. -/
theorem C6_points_walker_throws :
    (PointsWalker.for_each stofDigits ⟨[]⟩ ⟨[0], "gml:pos", "1 2 abc"⟩).outcome =
      .error (Fault.stof StofError.invalid_argument) ∧
    (PointsWalker.for_each stofDigits ⟨[]⟩ ⟨[0], "gml:pos", "1 2 abc"⟩).walker.points =
      [⟨(1, 2, 0)⟩] := by
  decide

/-! ### Edge extraction and bounds (modelled from the specification) -/

theorem ringPairs_length {α : Type} (points : List (CityGMLPoint α)) :
    (ringPairs points).length = points.length := by
  cases points with
  | nil => rfl
  | cons p ps =>
    have h : ∃ l, (p :: ps).getLast? = some l := by
      cases hl : (p :: ps).getLast? with
      | none => rw [List.getLast?_eq_none_iff] at hl; simp at hl
      | some l => exact ⟨l, rfl⟩
    obtain ⟨l, hl⟩ := h
    simp only [ringPairs, hl, List.head?_cons, List.tail_cons, List.length_append,
      List.length_zip, List.length_cons, List.length_singleton, List.length_nil]
    omega

theorem edgeSegments_length {α : Type} (pairs : List (CityGMLPoint α × CityGMLPoint α)) :
    ((pairs.map (fun pq => edgeSegment pq.1 pq.2)).flatten).length = 6 * pairs.length := by
  induction pairs with
  | nil => rfl
  | cons pq pairs ih =>
    simp only [List.map_cons, List.flatten_cons, List.length_append, List.length_cons]
    rw [ih]
    simp only [edgeSegment, List.length_cons, List.length_nil]
    omega

/-- A ring that is empty or has at least three points yields one segment per
pair of `ringPairs`, six floats for each of its points. -/
theorem ringEdges_of_regular {α : Type} (ring : CityGMLRing α)
    (h : ring.points.length = 0 ∨ 3 ≤ ring.points.length) :
    ringEdges ring = ((ringPairs ring.points).map (fun pq => edgeSegment pq.1 pq.2)).flatten ∧
    (ringEdges ring).length = 6 * ring.points.length := by
  have h1 : ringEdges ring =
      ((ringPairs ring.points).map (fun pq => edgeSegment pq.1 pq.2)).flatten := by
    unfold ringEdges
    rcases h with h | h
    · have hp : ring.points = [] := List.length_eq_zero.1 h
      simp [hp, ringPairs]
    · rw [if_neg (by omega)]
  refine ⟨h1, ?_⟩
  rw [h1, edgeSegments_length, ringPairs_length]

theorem interiorEdges_length {α : Type} (rings : List (CityGMLRing α))
    (h : ∀ r ∈ rings, r.points.length = 0 ∨ 3 ≤ r.points.length) :
    ((rings.map ringEdges).flatten).length =
      6 * (rings.map (fun r => r.points.length)).sum := by
  induction rings with
  | nil => rfl
  | cons r rings ih =>
    have h1 := (ringEdges_of_regular r (h r (by simp))).2
    have h2 := ih (fun r' hr' => h r' (by simp [hr']))
    simp only [List.map_cons, List.flatten_cons, List.length_append, List.sum_cons, h1, h2]
    omega

/-- **C7 (as amended).**  For an object holding exactly one polygon none of whose
rings is degenerate (each ring is empty or has at least 3 points), with an
exterior ring of `n` points and holes of `m1, …, mk` points,
`regenerateEdgesFor` leaves the edge buffer with exactly
`6 * (n + m1 + … + mk)` floats: for each ring, exterior first, one 6-float
segment per consecutive point pair followed by one for the closing pair. -/
theorem C7_edges_length {α : Type} (object : CityGMLObject α) (polygon : CityGMLPolygon α)
    (hone : (object.polygonsByType.map Prod.snd).flatten = [polygon])
    (hext : polygon.exteriorRing.points.length = 0 ∨ 3 ≤ polygon.exteriorRing.points.length)
    (hint : ∀ r ∈ polygon.interiorRings, r.points.length = 0 ∨ 3 ≤ r.points.length) :
    (regenerateEdgesFor object).edges.length =
      6 * (polygon.exteriorRing.points.length +
        (polygon.interiorRings.map (fun r => r.points.length)).sum) ∧
    (regenerateEdgesFor object).edges =
      (((polygon.exteriorRing :: polygon.interiorRings).map
        (fun r => ((ringPairs r.points).map (fun pq => edgeSegment pq.1 pq.2)).flatten)).flatten) := by
  have he : (regenerateEdgesFor object).edges = polygonEdges polygon := by
    simp [regenerateEdgesFor, hone]
  rw [he]
  constructor
  · unfold polygonEdges
    rw [List.length_append, (ringEdges_of_regular _ hext).2, interiorEdges_length _ hint]
    ring
  · unfold polygonEdges
    rw [List.map_cons, List.flatten_cons, (ringEdges_of_regular _ hext).1]
    congr 2
    apply List.map_congr_left
    intro r hr
    exact (ringEdges_of_regular r (hint r hr)).1

/-- The amended C7 at `holedObject`: a triangle with a triangular hole gives
`6 * (3 + 3)` floats. -/
theorem C7_edges_length_witness :
    (holedObject.polygonsByType.map Prod.snd).flatten =
      [(⟨⟨[⟨(0, 0, 0)⟩, ⟨(9, 0, 0)⟩, ⟨(0, 9, 0)⟩]⟩,
        [⟨[⟨(1, 1, 0)⟩, ⟨(2, 1, 0)⟩, ⟨(1, 2, 0)⟩]⟩]⟩ : CityGMLPolygon Int)] ∧
    3 ≤ ([⟨(0, 0, 0)⟩, ⟨(9, 0, 0)⟩, ⟨(0, 9, 0)⟩] : List (CityGMLPoint Int)).length ∧
    3 ≤ ([⟨(1, 1, 0)⟩, ⟨(2, 1, 0)⟩, ⟨(1, 2, 0)⟩] : List (CityGMLPoint Int)).length ∧
    (regenerateEdgesFor holedObject).edges.length = 6 * (3 + (3 + 0)) :=
  ⟨by decide, by decide, by decide,
    (C7_edges_length holedObject
      ⟨⟨[⟨(0, 0, 0)⟩, ⟨(9, 0, 0)⟩, ⟨(0, 9, 0)⟩]⟩, [⟨[⟨(1, 1, 0)⟩, ⟨(2, 1, 0)⟩, ⟨(1, 2, 0)⟩]⟩]⟩
      (by decide) (by decide) (by decide)).1⟩

/-- **C7 (as stated) fails on the model.**  `twoPointObject` holds exactly one
polygon, whose exterior ring has 2 points and which has no hole; the ring is
degenerate and contributes no edge, so the edge buffer holds 0 floats and not
`6 * (2 + 0) = 12`. -/
theorem C7_edges_length_counterexample :
    (twoPointObject.polygonsByType.map Prod.snd).flatten =
      [(⟨⟨[⟨(0, 0, 0)⟩, ⟨(1, 0, 0)⟩]⟩, []⟩ : CityGMLPolygon Int)] ∧
    (⟨[⟨(0, 0, 0)⟩, ⟨(1, 0, 0)⟩]⟩ : CityGMLRing Int).points.length = 2 ∧
    (regenerateEdgesFor twoPointObject).edges.length = 0 ∧
    (regenerateEdgesFor twoPointObject).edges.length ≠ 6 * (2 + 0) := by
  decide

theorem CityGMLParser.ingestAll_min {α : Type} [LinearOrder α] (pts : List (CityGMLPoint α)) :
    ∀ (p : CityGMLParser α) (k : Fin 3),
      coordinate (p.ingestAll pts).minCoordinates k =
        pts.foldl (fun m q => min m (coordinate q.coordinates k))
          (coordinate p.minCoordinates k) := by
  induction pts with
  | nil => intro p k; rfl
  | cons q pts ih =>
    intro p k
    simp only [CityGMLParser.ingestAll, List.foldl_cons] at ih ⊢
    rw [ih]
    fin_cases k <;> rfl

theorem CityGMLParser.ingestAll_max {α : Type} [LinearOrder α] (pts : List (CityGMLPoint α)) :
    ∀ (p : CityGMLParser α) (k : Fin 3),
      coordinate (p.ingestAll pts).maxCoordinates k =
        pts.foldl (fun m q => max m (coordinate q.coordinates k))
          (coordinate p.maxCoordinates k) := by
  induction pts with
  | nil => intro p k; rfl
  | cons q pts ih =>
    intro p k
    simp only [CityGMLParser.ingestAll, List.foldl_cons] at ih ⊢
    rw [ih]
    fin_cases k <;> rfl

/-- A running minimum is below its start and below every value seen, and it is
the start or one of the values seen. -/
theorem foldl_min_spec {α β : Type} [LinearOrder α] (f : β → α) (l : List β) :
    ∀ a : α, l.foldl (fun m q => min m (f q)) a ≤ a ∧
      (∀ q ∈ l, l.foldl (fun m q => min m (f q)) a ≤ f q) ∧
      (l.foldl (fun m q => min m (f q)) a = a ∨
        ∃ q ∈ l, l.foldl (fun m q => min m (f q)) a = f q) := by
  induction l with
  | nil => intro a; simp
  | cons x l ih =>
    intro a
    obtain ⟨h1, h2, h3⟩ := ih (min a (f x))
    simp only [List.foldl_cons]
    refine ⟨le_trans h1 (min_le_left _ _), ?_, ?_⟩
    · intro q hq
      rcases List.mem_cons.1 hq with rfl | hq
      · exact le_trans h1 (min_le_right _ _)
      · exact h2 q hq
    · rcases h3 with h3 | ⟨q, hq, h3⟩
      · rcases min_choice a (f x) with hm | hm
        · left; rw [h3, hm]
        · right; exact ⟨x, by simp, by rw [h3, hm]⟩
      · right; exact ⟨q, by simp [hq], h3⟩

/-- A running maximum is above its start and above every value seen, and it is
the start or one of the values seen. -/
theorem foldl_max_spec {α β : Type} [LinearOrder α] (f : β → α) (l : List β) :
    ∀ a : α, a ≤ l.foldl (fun m q => max m (f q)) a ∧
      (∀ q ∈ l, f q ≤ l.foldl (fun m q => max m (f q)) a) ∧
      (l.foldl (fun m q => max m (f q)) a = a ∨
        ∃ q ∈ l, l.foldl (fun m q => max m (f q)) a = f q) := by
  induction l with
  | nil => intro a; simp
  | cons x l ih =>
    intro a
    obtain ⟨h1, h2, h3⟩ := ih (max a (f x))
    simp only [List.foldl_cons]
    refine ⟨le_trans (le_max_left _ _) h1, ?_, ?_⟩
    · intro q hq
      rcases List.mem_cons.1 hq with rfl | hq
      · exact le_trans (le_max_right _ _) h1
      · exact h2 q hq
    · rcases h3 with h3 | ⟨q, hq, h3⟩
      · rcases max_choice a (f x) with hm | hm
        · left; rw [h3, hm]
        · right; exact ⟨x, by simp, by rw [h3, hm]⟩
      · right; exact ⟨q, by simp [hq], h3⟩

/-- **C8.**  Starting from a freshly constructed or a cleared parser, after a
non-empty sequence of points has been ingested, each component of
`minCoordinates` is the least and each component of `maxCoordinates` the
greatest value of that component over the points ingested: it is the component
of one of the points and bounds the component of every point. -/
theorem C8_bounds {α : Type} [LinearOrder α] [BoundedOrder α] (start : CityGMLParser α)
    (hstart : start = CityGMLParser.new ∨ ∃ p : CityGMLParser α, start = p.clear)
    (pts : List (CityGMLPoint α)) (hne : pts ≠ []) (k : Fin 3) :
    (∃ p ∈ pts, coordinate (start.ingestAll pts).minCoordinates k = coordinate p.coordinates k) ∧
    (∀ q ∈ pts, coordinate (start.ingestAll pts).minCoordinates k ≤ coordinate q.coordinates k) ∧
    (∃ p ∈ pts, coordinate (start.ingestAll pts).maxCoordinates k = coordinate p.coordinates k) ∧
    (∀ q ∈ pts, coordinate q.coordinates k ≤ coordinate (start.ingestAll pts).maxCoordinates k) := by
  have hs : start = CityGMLParser.new := by
    rcases hstart with h | ⟨p, h⟩
    · exact h
    · rw [h]; rfl
  subst hs
  have hmin0 : coordinate (CityGMLParser.new : CityGMLParser α).minCoordinates k = ⊤ := by
    fin_cases k <;> rfl
  have hmax0 : coordinate (CityGMLParser.new : CityGMLParser α).maxCoordinates k = ⊥ := by
    fin_cases k <;> rfl
  obtain ⟨x, hx⟩ := List.exists_mem_of_ne_nil pts hne
  rw [CityGMLParser.ingestAll_min, CityGMLParser.ingestAll_max, hmin0, hmax0]
  obtain ⟨_, a2, a3⟩ := foldl_min_spec (fun q : CityGMLPoint α => coordinate q.coordinates k) pts ⊤
  obtain ⟨_, b2, b3⟩ := foldl_max_spec (fun q : CityGMLPoint α => coordinate q.coordinates k) pts ⊥
  refine ⟨?_, a2, ?_, b2⟩
  · rcases a3 with h | h
    · refine ⟨x, hx, ?_⟩
      have := a2 x hx
      rw [h] at this ⊢
      exact (top_le_iff.1 this).symm
    · exact h
  · rcases b3 with h | h
    · refine ⟨x, hx, ?_⟩
      have := b2 x hx
      rw [h] at this ⊢
      exact (le_bot_iff.1 this).symm
    · exact h

/-- C8 at the points (1,2,3), (−1,5,0), (0,0,10) and the first component, with
the bounds these points give: min = (−1,0,0) and max = (1,5,10). -/
theorem C8_bounds_witness :
    ((CityGMLParser.new : CityGMLParser ExtendedInt) = CityGMLParser.new ∨
      ∃ p : CityGMLParser ExtendedInt, CityGMLParser.new = p.clear) ∧
    [ExtendedInt.point 1 2 3, ExtendedInt.point (-1) 5 0, ExtendedInt.point 0 0 10] ≠ [] ∧
    ((∃ p ∈ [ExtendedInt.point 1 2 3, ExtendedInt.point (-1) 5 0, ExtendedInt.point 0 0 10],
        coordinate ((CityGMLParser.new : CityGMLParser ExtendedInt).ingestAll
          [ExtendedInt.point 1 2 3, ExtendedInt.point (-1) 5 0,
            ExtendedInt.point 0 0 10]).minCoordinates 0 = coordinate p.coordinates 0) ∧
      (∀ q ∈ [ExtendedInt.point 1 2 3, ExtendedInt.point (-1) 5 0, ExtendedInt.point 0 0 10],
        coordinate ((CityGMLParser.new : CityGMLParser ExtendedInt).ingestAll
          [ExtendedInt.point 1 2 3, ExtendedInt.point (-1) 5 0,
            ExtendedInt.point 0 0 10]).minCoordinates 0 ≤ coordinate q.coordinates 0) ∧
      (∃ p ∈ [ExtendedInt.point 1 2 3, ExtendedInt.point (-1) 5 0, ExtendedInt.point 0 0 10],
        coordinate ((CityGMLParser.new : CityGMLParser ExtendedInt).ingestAll
          [ExtendedInt.point 1 2 3, ExtendedInt.point (-1) 5 0,
            ExtendedInt.point 0 0 10]).maxCoordinates 0 = coordinate p.coordinates 0) ∧
      (∀ q ∈ [ExtendedInt.point 1 2 3, ExtendedInt.point (-1) 5 0, ExtendedInt.point 0 0 10],
        coordinate q.coordinates 0 ≤
          coordinate ((CityGMLParser.new : CityGMLParser ExtendedInt).ingestAll
            [ExtendedInt.point 1 2 3, ExtendedInt.point (-1) 5 0,
              ExtendedInt.point 0 0 10]).maxCoordinates 0)) ∧
    ((CityGMLParser.new : CityGMLParser ExtendedInt).ingestAll
      [ExtendedInt.point 1 2 3, ExtendedInt.point (-1) 5 0,
        ExtendedInt.point 0 0 10]).minCoordinates =
      (ExtendedInt.ofInt (-1), ExtendedInt.ofInt 0, ExtendedInt.ofInt 0) ∧
    ((CityGMLParser.new : CityGMLParser ExtendedInt).ingestAll
      [ExtendedInt.point 1 2 3, ExtendedInt.point (-1) 5 0,
        ExtendedInt.point 0 0 10]).maxCoordinates =
      (ExtendedInt.ofInt 1, ExtendedInt.ofInt 5, ExtendedInt.ofInt 10) :=
  ⟨Or.inl rfl, by decide,
    C8_bounds (CityGMLParser.new : CityGMLParser ExtendedInt) (Or.inl rfl)
      [ExtendedInt.point 1 2 3, ExtendedInt.point (-1) 5 0, ExtendedInt.point 0 0 10]
      (by decide) 0,
    by decide, by decide⟩
